import Mathlib

/- Shallow embedding of the pipedream asset registry (src/registry.rs, src/asset.rs,
   src/texture.rs).  External collaborators -- the filesystem walker, the PNG decoder,
   the random number generator and the GPU uploader -- are modelled as explicit inputs.
   Machine integers are Nat, with an explicit truncation where the code performs an
   `as u32` cast.  HashMap fields are modelled as association lists with
   replace-or-append insertion, which matches HashMap insert up to iteration order;
   the places where the code iterates over a map are noted at their definitions.
   Rust panics (unwrap, unreachable, index underflow) are modelled as `none`. -/

namespace Pipedream

/-- Model of `vulkano::format::Format`, restricted to the tag the code names plus an
    opaquely numbered catch-all for every other variant of the Rust enum. -/
inductive Format where
  | R8G8B8A8Srgb : Format
  | otherFormat : Nat → Format
  deriving DecidableEq

/-- Model of `ChannelMask` (src/texture.rs): a bitflags wrapper over u8 with
    RED=1, GREEN=2, BLUE=4, ALPHA=8. -/
structure ChannelMask where
  bits : Nat
  deriving DecidableEq

def ChannelMask.RED : ChannelMask := ⟨1⟩

def ChannelMask.GREEN : ChannelMask := ⟨2⟩

def ChannelMask.BLUE : ChannelMask := ⟨4⟩

def ChannelMask.ALPHA : ChannelMask := ⟨8⟩

/-- Bitwise or of two channel masks (the `|` operator of the bitflags type). -/
def ChannelMask.union (a b : ChannelMask) : ChannelMask := ⟨Nat.lor a.bits b.bits⟩

/-- `ChannelMask::all()` = RED|GREEN|BLUE|ALPHA. -/
def ChannelMask.all : ChannelMask := ⟨15⟩

/-- The mask RED|GREEN|BLUE built exactly as the RGB branch of `process_texture`
    builds it. -/
def rgbMask : ChannelMask :=
  ChannelMask.union (ChannelMask.union ChannelMask.RED ChannelMask.GREEN) ChannelMask.BLUE

/-- Model of `CompressionMode` (src/texture.rs). -/
inductive CompressionMode where
  | None | DXT1 | DXT1Cutout | DXT5
  deriving DecidableEq

/-- Model of `TextureSize` (src/texture.rs): the power-of-two sizes 8..8192.
    Constructors are prefixed with `s` because Lean identifiers cannot begin
    with a digit. -/
inductive TextureSize where
  | s8 | s16 | s32 | s64 | s128 | s256 | s512 | s1024 | s2048 | s4096 | s8192
  deriving DecidableEq

/-- Model of `MipGenSettings` (src/texture.rs). -/
inductive MipGenSettings where
  | NoMipmaps | Linear | Nearest | Sharpen | Blur
  deriving DecidableEq

/-- Model of `PowerOfTwoMode` (src/texture.rs). -/
inductive PowerOfTwoMode where
  | None | PadToPowerOfTwo | PadToSquarePowerOfTwo
  deriving DecidableEq

/-- Model of `toolbelt::color::LinearColor`, an external color type.  Only the
    constant `LinearColor::BLACK` reaches this code, so the type is abstract. -/
inductive LinearColor where
  | BLACK : LinearColor
  | otherColor : Nat → LinearColor
  deriving DecidableEq

/-- Model of `vulkano::sampler::SamplerAddressMode`. -/
inductive SamplerAddressMode where
  | Repeat | MirroredRepeat | ClampToEdge | ClampToBorder | MirrorClampToEdge
  deriving DecidableEq

/-- Model of `vulkano::sampler::Filter`. -/
inductive Filter where
  | Nearest | Linear
  deriving DecidableEq

/-- Model of an external GPU image handle (`Arc<ImmutableImage<R8G8B8A8Srgb>>`).
    Clones of one Arc are equal handles, so a handle is just an abstract value. -/
structure GpuImage where
  imgId : Nat
  deriving DecidableEq

/-- Model of `Texture` (src/texture.rs). -/
inductive Texture where
  | RGBA8_Srgb : GpuImage → Texture
  deriving DecidableEq

/-- Model of `image::ColorType` of the external image crate. -/
inductive ColorType where
  | Gray : Nat → ColorType
  | RGB : Nat → ColorType
  | Palette : Nat → ColorType
  | GrayA : Nat → ColorType
  | RGBA : Nat → ColorType
  | BGR : Nat → ColorType
  | BGRA : Nat → ColorType
  deriving DecidableEq

/-- Model of `TextureMetadata` (src/texture.rs).  The `[u32; 2]` arrays are pairs
    of Nat. -/
structure TextureMetadata where
  source_size : Nat × Nat
  max_ingame_size : Nat × Nat
  data_size : Nat × Nat
  has_channels : ChannelMask
  format : Format
  num_mips : Nat
  compression_mode : CompressionMode
  include_channels : ChannelMask
  max_texture_size : Option TextureSize
  mip_gen_settings : MipGenSettings
  lod_bias : Nat
  power_of_two_mode : PowerOfTwoMode
  padding_color : LinearColor
  srgb : Bool
  x_axis_tiling : SamplerAddressMode
  y_axis_tiling : SamplerAddressMode
  invert_green : Bool
  filter : Filter
  deriving DecidableEq

/-- `TextureMetadata::dimensions()` (src/texture.rs): the source size as a 2d
    dimension pair handed to the uploader. -/
def TextureMetadata.dimensions (m : TextureMetadata) : Nat × Nat := m.source_size

/-- Model of `TextureAssetData` (src/asset.rs): metadata plus the decoded byte
    buffer (bytes as Nat). -/
structure TextureAssetData where
  settings : TextureMetadata
  data : List Nat
  deriving DecidableEq

/-- Model of `AssetData` (src/asset.rs). -/
inductive AssetData where
  | Texture : TextureAssetData → AssetData
  deriving DecidableEq

/-- Model of `Asset` (src/asset.rs).  `timestamp` abstracts `DateTime<Local>` as a
    Nat instant: the code only ever compares timestamps for equality. -/
structure Asset where
  path : String
  timestamp : Nat
  uid : Nat
  thumbnail_id : Option Nat
  data : AssetData
  deriving DecidableEq

/-- Model of `FileTreeNode` (src/asset.rs).  The directory HashMap is an
    association list from path segment to child node. -/
inductive FileTreeNode where
  | Directory : List (String × FileTreeNode) → FileTreeNode
  | File : Asset → FileTreeNode

/-- Model of `AssetRegistryError` (src/registry.rs).  The wrapped foreign error
    values are abstracted as strings. -/
inductive AssetRegistryError where
  | PathDoesNotExist : String → AssetRegistryError
  | WalkDirError : String → AssetRegistryError
  | Other : String → AssetRegistryError
  deriving DecidableEq

/-- Model of `From<walkdir::Error> for AssetRegistryError` (src/registry.rs line 47). -/
def fromWalkdirError (e : String) : AssetRegistryError := AssetRegistryError.WalkDirError e

/-- Model of `AssetRegistry` (src/registry.rs).  The `queue: Arc<Queue>` handle is
    external state with no observable structure; operations that use it receive the
    uploader as an explicit function instead. -/
structure AssetRegistry where
  base_path_relative : String
  base_path_absolute : String
  file_tree : FileTreeNode
  cached_texture_arcs : List (String × Texture)
  uid_to_path : List (Nat × String)

/-- The uncompressed pixel output of the external PNG decoder for one file:
    dimensions, color type and the flat byte buffer, per the image-decoder
    contract. -/
structure PngImage where
  width : Nat
  height : Nat
  colortype : ColorType
  data : List Nat
  deriving DecidableEq

/-- Model of one `walkdir::DirEntry`.  `path` is `entry.path()` as a string,
    `isDir` is `entry.file_type().is_dir()`, `mtime` is the modified time
    `DateTime<Local>` instant, `png` is what the external PNG decoder yields for
    the file's bytes, and `uid` is the u64 that `rand::random()` draws if this
    entry gets ingested. -/
structure DirEntry where
  path : String
  isDir : Bool
  mtime : Nat
  png : PngImage
  uid : Nat
  deriving DecidableEq

/-- One item of the external walker's iterator: `Result<DirEntry, walkdir::Error>`. -/
inductive WalkItem where
  | ok : DirEntry → WalkItem
  | err : String → WalkItem
  deriving DecidableEq

-- Association list primitives modelling HashMap lookup and insert ---------------

/-- HashMap lookup: first binding of the key. -/
def alookup {κ ν : Type} [DecidableEq κ] (m : List (κ × ν)) (k : κ) : Option ν :=
  match m with
  | [] => none
  | (k2, v) :: rest => if k2 = k then some v else alookup rest k

/-- HashMap insert: replace the first binding of the key in place, or append. -/
def insertA {κ ν : Type} [DecidableEq κ] (m : List (κ × ν)) (k : κ) (v : ν) :
    List (κ × ν) :=
  match m with
  | [] => [(k, v)]
  | (k2, v2) :: rest => if k2 = k then (k, v) :: rest else (k2, v2) :: insertA rest k v

-- Character-level string utilities ----------------------------------------------

/-- Split a character list on a separator character.  This is the semantics of
    Rust `str::split` with a one-character pattern: always at least one piece, and
    no piece contains the separator. -/
def splitCh (sep : Char) : List Char → List (List Char)
  | [] => [[]]
  | c :: rest =>
    let r := splitCh sep rest
    if c = sep then [] :: r
    else
      match r with
      | [] => [[c]]
      | h :: t => (c :: h) :: t

/-- Join character lists with a separator: Rust `Vec::join` / `intercalate`. -/
def joinCh (sep : Char) : List (List Char) → List Char
  | [] => []
  | [x] => x
  | x :: y :: t => x ++ sep :: joinCh sep (y :: t)

/-- `replace("\\", "/")`: both patterns have length one, so this is a character map. -/
def normSlashes (s : String) : String :=
  String.mk (s.toList.map (fun c => if c = '\\' then '/' else c))

/-- `split("/")` on an already backslash-normalized string. -/
def splitSlash (s : String) : List String :=
  (splitCh '/' s.toList).map String.mk

/-- `Vec::<String>::join("/")`. -/
def joinSlash (l : List String) : String :=
  String.mk (joinCh '/' (l.map String.toList))

/-- Boolean list-prefix test (used for filesystem well-formedness hypotheses). -/
def preOf {α : Type} [DecidableEq α] : List α → List α → Bool
  | [], _ => true
  | _ :: _, [] => false
  | a :: p, b :: l => a = b && preOf p l

/-- Auxiliary loop for `trimStartCh`, with explicit fuel so that the kernel can
    evaluate it.  Each successful round strips a nonempty prefix, so fuel equal to
    the list length is always sufficient. -/
def trimStartChAux (pat : List Char) : Nat → List Char → List Char
  | 0, l => l
  | fuel + 1, l =>
    if pat ≠ [] ∧ preOf pat l then trimStartChAux pat fuel (l.drop pat.length) else l

/-- Rust `str::trim_start_matches` at character level: repeatedly strip the
    pattern while it is a nonempty leading match. -/
def trimStartCh (pat : List Char) (l : List Char) : List Char :=
  trimStartChAux pat l.length l

/-- `Path::file_name()` of a path string rendered with `/` separators: the last
    non-empty, non-`.` component, unless it is `..` (or there is none), in which
    case Rust returns None and the code's `unwrap` panics. -/
def rustFileName (p : String) : Option String :=
  let comps := (splitSlash p).filter (fun s => s ≠ "" ∧ s ≠ ".")
  match comps.getLast? with
  | some c => if c = ".." then none else some c
  | none => none

/-- `Path::extension()` of a file name: the portion after the last `.`, None when
    there is no `.` or the name is a dot file with a single leading `.`. -/
def extensionOf (f : String) : Option String :=
  match splitCh '.' f.toList with
  | [] => none
  | [_] => none
  | [[], _] => none
  | parts => parts.getLast?.map String.mk

-- Walker entry helpers -----------------------------------------------------------

/-- The path segments of a walker entry: `entry.path()` backslash-normalized and
    split on `/`, exactly as the head of `rescan` computes them (before `skip(1)`). -/
def entrySegments (e : DirEntry) : List String :=
  splitSlash (normSlashes e.path)

/-- `entry.file_name()`: the terminal component of the entry's path. -/
def entryFileName (e : DirEntry) : String :=
  (entrySegments e).getLast?.getD ""

/-- Truncation of the `as u32` cast. -/
def mod32 (n : Nat) : Nat := n % 4294967296

-- Ingestion pipeline (process_file / process_texture, src/registry.rs) -----------

/-- The RGB8 normalization loop of `process_texture`: for each `chunks(3)` chunk
    of the decoded byte stream (the last chunk may be short), emit the chunk
    followed by a 255 alpha byte. -/
def pushAlpha : List Nat → List Nat
  | [] => []
  | [a] => [a, 255]
  | [a, b] => [a, b, 255]
  | a :: b :: c :: rest => a :: b :: c :: 255 :: pushAlpha rest

/-- The `Asset` built at the end of the `"png"` arm of `process_texture`: the
    `TextureMetadata` literal of src/registry.rs lines 329-348 around the
    channel mask and payload computed by the color-type matches. -/
def mkTexAsset (filename : String) (timestamp uid : Nat) (dimensions : Nat × Nat)
    (channels : ChannelMask) (result_data : List Nat) : Asset :=
  { path := filename
    timestamp := timestamp
    uid := uid
    thumbnail_id := none
    data := AssetData.Texture
      { settings :=
          { source_size := dimensions
            max_ingame_size := dimensions
            data_size := (mod32 result_data.length, 0)
            has_channels := channels
            format := Format.R8G8B8A8Srgb
            num_mips := 0
            compression_mode := CompressionMode.None
            include_channels := channels
            max_texture_size := none
            mip_gen_settings := MipGenSettings.NoMipmaps
            lod_bias := 0
            power_of_two_mode := PowerOfTwoMode.None
            padding_color := LinearColor.BLACK
            srgb := true
            x_axis_tiling := SamplerAddressMode.Repeat
            y_axis_tiling := SamplerAddressMode.Repeat
            invert_green := false
            filter := Filter.Linear }
        data := result_data } }

/-- Model of `process_texture` (src/registry.rs line 283).  The code matches the
    color type twice -- once choosing format and channel masks (diagnostic + None
    for unsupported types), once building the payload; both matches are on the
    same scrutinee, so they are fused here.  Decoder output and the random uid
    come from the entry's oracle fields. -/
def process_texture (e : DirEntry) (filename : String) (ext : String) : Option Asset :=
  if ext = "png" then
    match e.png.colortype with
    | ColorType.RGB 8 =>
      some (mkTexAsset filename e.mtime e.uid (mod32 e.png.width, mod32 e.png.height)
        rgbMask (pushAlpha e.png.data))
    | ColorType.RGBA 8 =>
      some (mkTexAsset filename e.mtime e.uid (mod32 e.png.width, mod32 e.png.height)
        ChannelMask.all e.png.data)
    | _ => none
  else none

/-- Model of `process_file` (src/registry.rs line 271): dispatch on the extension
    of the entry's file name.  Note the contains-check is on the extension exactly
    as stored, with no case folding. -/
def process_file (e : DirEntry) : Option Asset :=
  match extensionOf (entryFileName e) with
  | some ext =>
    if ext ∈ ["png", "jpg", "tga", "dds"] then process_texture e (entryFileName e) ext
    else none
  | none => none

-- File tree primitives ------------------------------------------------------------

/-- The `File` children of a directory map, in iteration order (the code collects
    them from HashMap iteration; order is a modelling choice). -/
def filesOf (m : List (String × FileTreeNode)) : List Asset :=
  m.filterMap (fun kn =>
    match kn.2 with
    | FileTreeNode.File a => some a
    | FileTreeNode.Directory _ => none)

/-- Walk a tree along exact path segments, returning the node reached. -/
def subtreeAt : FileTreeNode → List String → Option FileTreeNode
  | t, [] => some t
  | FileTreeNode.File _, _ :: _ => none
  | FileTreeNode.Directory m, s :: rest =>
    match alookup m s with
    | some n => subtreeAt n rest
    | none => none

/-- Resolve a segment path to a `File` leaf. -/
def resolveFile (t : FileTreeNode) (segs : List String) : Option Asset :=
  match subtreeAt t segs with
  | some (FileTreeNode.File a) => some a
  | _ => none

/-- The directory map that `get_node_and_create_if_none` would hand out at a
    directory path: missing segments are treated as empty directories (the code
    creates them), a `File` in the way is the panic case (`none`). -/
def effMapAt : FileTreeNode → List String → Option (List (String × FileTreeNode))
  | FileTreeNode.File _, _ => none
  | FileTreeNode.Directory m, [] => some m
  | FileTreeNode.Directory m, s :: rest =>
    effMapAt ((alookup m s).getD (FileTreeNode.Directory [])) rest

/-- Functional rendering of `get_node_and_create_if_none` followed by a mutation
    of the target directory's map: walk `path`, creating missing directories,
    apply `f` to the map at the end, and rebuild the tree.  `none` models the two
    panics (a `File` where a directory is required). -/
def updateAtDir {Out : Type} :
    FileTreeNode → List String →
    (List (String × FileTreeNode) → List (String × FileTreeNode) × Out) →
    Option (FileTreeNode × Out)
  | FileTreeNode.File _, _, _ => none
  | FileTreeNode.Directory m, [], f =>
    some (FileTreeNode.Directory (f m).1, (f m).2)
  | FileTreeNode.Directory m, s :: rest, f =>
    match updateAtDir ((alookup m s).getD (FileTreeNode.Directory [])) rest f with
    | some (child2, out) => some (FileTreeNode.Directory (insertA m s child2), out)
    | none => none

-- Rescan (src/registry.rs line 81) ------------------------------------------------

/-- The `'outer` scan of `rescan`: the first `File` child (in map iteration
    order) whose stored path has the entry's file name as its terminal component.
    The code unwraps `Path::new(&asset.path).file_name()`; stored paths are bare
    file names for which that unwrap succeeds, and a pathological stored path with
    no file name is treated as a non-match here. -/
def findMatch (m : List (String × FileTreeNode)) (fname : String) : Option Asset :=
  match m with
  | [] => none
  | (_, FileTreeNode.Directory _) :: rest => findMatch rest fname
  | (_, FileTreeNode.File asset) :: rest =>
    if rustFileName asset.path = some fname then some asset else findMatch rest fname

/-- The `should_process` flag of the `rescan` loop: true by default, false when a
    matching `File` child carries the entry's current modified time. -/
def shouldProcess (m : List (String × FileTreeNode)) (e : DirEntry)
    (filename : String) : Bool :=
  match findMatch m filename with
  | some asset => asset.timestamp != e.mtime
  | none => true

/-- The reconciliation body of `rescan` applied to the target directory's map:
    decide `should_process` from the timestamp of a matching `File` child, then
    ingest and insert under the file-name key when processing is due.  The second
    component carries the newly inserted asset (for `new_id`) and the number of
    ingestions that produced an asset. -/
def reconcile (m : List (String × FileTreeNode)) (e : DirEntry) (filename : String) :
    List (String × FileTreeNode) × (Option Asset × Nat) :=
  if shouldProcess m e filename then
    match process_file e with
    | some new_asset =>
      (insertA m filename (FileTreeNode.File new_asset), (some new_asset, 1))
    | none => (m, (none, 0))
  else (m, (none, 0))

/-- The `path_segments` vector of one `rescan` iteration: the entry's normalized
    split path after `skip(1)`. -/
def stepSegs (e : DirEntry) : List String :=
  (entrySegments e).drop 1

/-- One iteration of the `rescan` loop for a file entry: split the path, drop the
    base segment, walk-or-create the directory path, reconcile, and record
    `uid -> slash-joined path` on successful ingestion.  `none` models the panics
    (empty segment list after `skip(1)`, or a `File` blocking the directory walk). -/
def rescanStep (reg : AssetRegistry) (e : DirEntry) :
    Option (AssetRegistry × Option (Nat × String) × Nat) :=
  match (stepSegs e).getLast? with
  | none => none
  | some _ =>
    match updateAtDir reg.file_tree (stepSegs e).dropLast
        (fun m => reconcile m e (entryFileName e)) with
    | none => none
    | some (tree2, newAsset, cnt) =>
      match newAsset with
      | some a =>
        some ({ reg with
                  file_tree := tree2
                  uid_to_path := insertA reg.uid_to_path a.uid (joinSlash (stepSegs e)) },
              some (a.uid, joinSlash (stepSegs e)), cnt)
      | none => some ({ reg with file_tree := tree2 }, none, cnt)

/-- Result of a completed `rescan` call, instrumented with the number of
    asset-producing ingestions and the list of `uid -> path` records made. -/
structure RescanOut where
  reg : AssetRegistry
  ingestions : Nat
  recorded : List (Nat × String)
  result : Except AssetRegistryError Unit

/-- The `rescan` loop over the walker's items.  `filter_map(Result::ok)` drops
    error items; the `!is_dir` filter drops directories; the remaining entries go
    through `rescanStep`. -/
def rescanGo : AssetRegistry → List WalkItem → Nat → List (Nat × String) → Option RescanOut
  | reg, [], ing, recd => some ⟨reg, ing, recd, Except.ok ()⟩
  | reg, WalkItem.err _ :: rest, ing, recd => rescanGo reg rest ing recd
  | reg, WalkItem.ok e :: rest, ing, recd =>
    if e.isDir then rescanGo reg rest ing recd
    else
      match rescanStep reg e with
      | none => none
      | some (reg2, recOpt, cnt) => rescanGo reg2 rest (ing + cnt) (recd ++ recOpt.toList)

/-- Model of `AssetRegistry::rescan`, with the walker's item stream as input. -/
def rescan (reg : AssetRegistry) (walk : List WalkItem) : Option RescanOut :=
  rescanGo reg walk 0 []

/-- Model of `AssetRegistry::new`; the filesystem existence check is an input. -/
def AssetRegistry.new (base_path_relative base_path_absolute : String)
    (existsOnDisk : Bool) : Except AssetRegistryError AssetRegistry :=
  if existsOnDisk then
    Except.ok
      { base_path_relative := base_path_relative
        base_path_absolute := base_path_absolute
        file_tree := FileTreeNode.Directory []
        cached_texture_arcs := []
        uid_to_path := [] }
  else Except.error (AssetRegistryError.PathDoesNotExist base_path_relative)

-- Lookups (src/registry.rs lines 166-239) -----------------------------------------

/-- The walk loop of `get_assets_in_directory`: peeking at the iterator, the code
    returns the `File` children of the current node when the popped segment is the
    last one (without resolving it), descends otherwise, and bails out on a `File`
    node or a missing segment. -/
def gaid_go : FileTreeNode → List String → Option (List Asset)
  | _, [] => none
  | FileTreeNode.File _, _ :: _ => none
  | FileTreeNode.Directory m, seg :: rest =>
    match rest with
    | [] => some (filesOf m)
    | _ :: _ =>
      match alookup m seg with
      | some node => gaid_go node rest
      | none => none

/-- Model of `AssetRegistry::get_assets_in_directory`. -/
def get_assets_in_directory (reg : AssetRegistry) (path : String) : Option (List Asset) :=
  gaid_go reg.file_tree (splitSlash (normSlashes path))

/-- The walk loop of `get_asset`: descend segment by segment; return the asset of
    a `File` reached with no segments remaining; a mid-path `File` or a missing
    segment is a miss. -/
def ga_go : FileTreeNode → List String → Option Asset
  | _, [] => none
  | FileTreeNode.File _, _ :: _ => none
  | FileTreeNode.Directory m, seg :: rest =>
    match alookup m seg with
    | some node =>
      match node, rest with
      | FileTreeNode.File a, [] => some a
      | _, _ => ga_go node rest
    | none => none

/-- Model of `AssetRegistry::get_asset`: normalize backslashes, strip the
    absolute-base prefix, split on `/`, drop empty segments, walk. -/
def get_asset (reg : AssetRegistry) (path : String) : Option Asset :=
  let cs := (normSlashes path).toList
  let cs2 := trimStartCh reg.base_path_absolute.toList cs
  let segs := ((splitCh '/' cs2).map String.mk).filter (fun s => s.length > 0)
  ga_go reg.file_tree segs

/-- Model of `AssetRegistry::get_path_from_id`. -/
def get_path_from_id (reg : AssetRegistry) (id : Nat) : Option String :=
  alookup reg.uid_to_path id

-- GPU upload cache (get_texture, src/registry.rs line 241) -------------------------

/-- Observable outcome of `get_texture`: `noTexture` is the `None` return,
    `fatal` is the `unimplemented!()` panic on a non-RGBA8 format, `found` carries
    the returned handle. -/
inductive GTexResult where
  | noTexture : GTexResult
  | fatal : GTexResult
  | found : Texture → GTexResult
  deriving DecidableEq

/-- The cache insertion of `get_texture`, as a registry-to-registry function. -/
def cacheInsert (reg : AssetRegistry) (path : String) (t : Texture) : AssetRegistry :=
  { reg with cached_texture_arcs := insertA reg.cached_texture_arcs path t }

/-- Model of `AssetRegistry::get_texture`.  `uploader` is the external
    `ImmutableImage::from_iter` upload (bytes and dimensions to an image handle;
    the format tag is always `R8G8B8A8Srgb` at this call site and the queue handle
    carries no observable state).  The returned Nat counts uploader invocations.
    The completion future is dropped synchronously and has no observable effect. -/
def get_texture (uploader : List Nat → Nat × Nat → GpuImage) (reg : AssetRegistry)
    (path : String) : GTexResult × AssetRegistry × Nat :=
  match get_asset reg path with
  | none => (GTexResult.noTexture, reg, 0)
  | some asset =>
    match asset.data with
    | AssetData.Texture tex_data =>
      match alookup reg.cached_texture_arcs path with
      | some a => (GTexResult.found a, reg, 0)
      | none =>
        match tex_data.settings.format with
        | Format.R8G8B8A8Srgb =>
          (GTexResult.found
             (Texture.RGBA8_Srgb (uploader tex_data.data tex_data.settings.dimensions)),
           cacheInsert reg path
             (Texture.RGBA8_Srgb (uploader tex_data.data tex_data.settings.dimensions)),
           1)
        | Format.otherFormat _ => (GTexResult.fatal, reg, 0)

-- Derived predicates --------------------------------------------------------------

/-- The outcome of the `'outer` reconciliation scan against the directory map that
    the walk of `rescanStep` would hand to `reconcile` at path `p`. -/
def findMatchAt (t : FileTreeNode) (p : List String) (fname : String) : Option Asset :=
  (effMapAt t p).bind (fun m => findMatch m fname)

/-- Well-formedness of the file tree as `rescan` maintains it: directory maps have
    distinct keys, every `File` child is stored under a key equal to its asset's
    `path` field, and that stored path is a bare valid file name (its own
    `Path::file_name()`). -/
inductive KeysOK : FileTreeNode → Prop where
  | file : ∀ a, rustFileName a.path = some a.path → KeysOK (FileTreeNode.File a)
  | dir : ∀ m, (∀ k n, (k, n) ∈ m → KeysOK n) →
      (∀ k a, (k, FileTreeNode.File a) ∈ m → a.path = k) →
      (m.map Prod.fst).Nodup →
      KeysOK (FileTreeNode.Directory m)

/-- Every `File` asset of a tree satisfies `P`. -/
inductive AllAssets (P : Asset → Prop) : FileTreeNode → Prop where
  | file : ∀ a, P a → AllAssets P (FileTreeNode.File a)
  | dir : ∀ m, (∀ k n, (k, n) ∈ m → AllAssets P n) →
      AllAssets P (FileTreeNode.Directory m)

/-- An asset produced by the ingestion pipeline. -/
def pipelineProduced (a : Asset) : Prop :=
  ∃ e fn ext, process_texture e fn ext = some a

/-- The per-walk-item segment paths of the non-directory entries, after `skip(1)`,
    used to state filesystem well-formedness hypotheses. -/
def okFilePaths : List WalkItem → List (List String)
  | [] => []
  | WalkItem.err _ :: rest => okFilePaths rest
  | WalkItem.ok e :: rest =>
    if e.isDir then okFilePaths rest
    else stepSegs e :: okFilePaths rest

/-- Two paths, neither of which is a prefix of the other (in particular they are
    distinct).  Real filesystem walks satisfy this pairwise: a file's path is
    never an initial segment of another file's path. -/
def NeitherPre (p q : List String) : Prop := preOf p q = false ∧ preOf q p = false

-- Concrete instances used by witnesses and counterexamples ------------------------

/-- A walker entry for a 2x1 RGB8 PNG at `assets/textures/a.png`. -/
def entA : DirEntry :=
  { path := "assets/textures/a.png"
    isDir := false
    mtime := 100
    png := ⟨2, 1, ColorType.RGB 8, [255, 0, 0, 0, 255, 0]⟩
    uid := 7 }

/-- A walker entry for a 1x1 RGBA8 PNG at `assets/textures/b.png`. -/
def entB : DirEntry :=
  { path := "assets/textures/b.png"
    isDir := false
    mtime := 50
    png := ⟨1, 1, ColorType.RGBA 8, [1, 2, 3, 4]⟩
    uid := 8 }

/-- `entA` with an upper-case extension in its path. -/
def entAUpper : DirEntry := { entA with path := "assets/textures/a.PNG" }

/-- The asset that ingesting `entA` produces. -/
def assetA : Asset :=
  mkTexAsset "a.png" 100 7 (2, 1) rgbMask [255, 0, 0, 255, 0, 255, 0, 255]

/-- A fresh registry over base path `assets`. -/
def regFresh : AssetRegistry :=
  { base_path_relative := "assets"
    base_path_absolute := "/abs/assets"
    file_tree := FileTreeNode.Directory []
    cached_texture_arcs := []
    uid_to_path := [] }

/-- A registry whose tree holds `assetA` under `textures/a.png`. -/
def regA : AssetRegistry :=
  { regFresh with
      file_tree := FileTreeNode.Directory
        [("textures", FileTreeNode.Directory [("a.png", FileTreeNode.File assetA)])] }

/-- A deterministic stand-in for the external uploader. -/
def upFun : List Nat → Nat × Nat → GpuImage := fun _ _ => ⟨42⟩

/-- `regA` with a populated GPU cache entry for `textures/a.png`. -/
def regAC : AssetRegistry :=
  { regA with cached_texture_arcs := [("textures/a.png", Texture.RGBA8_Srgb ⟨5⟩)] }

/-- The output of the first witness rescan (one RGB8 png under `textures`). -/
def outA : RescanOut :=
  (rescan regFresh [WalkItem.ok entA]).getD ⟨regFresh, 0, [], Except.ok ()⟩

/-- The output of a second rescan over the unchanged witness walk. -/
def outA2 : RescanOut :=
  (rescan outA.reg [WalkItem.ok entA]).getD ⟨regFresh, 0, [], Except.ok ()⟩

-- Association list lemmas ----------------------------------------------------------

/-- Looking up the key just inserted yields the inserted value. -/
theorem alookup_insertA_self {κ ν : Type} [DecidableEq κ] :
    ∀ (m : List (κ × ν)) (k : κ) (v : ν), alookup (insertA m k v) k = some v := by
  intro m k v
  induction m with
  | nil => simp [insertA, alookup]
  | cons kv rest ih =>
    obtain ⟨k2, v2⟩ := kv
    by_cases h : k2 = k
    · simp [insertA, h, alookup]
    · simp [insertA, h, alookup, ih]

/-- Inserting one key leaves lookups of other keys unchanged. -/
theorem alookup_insertA_ne {κ ν : Type} [DecidableEq κ] :
    ∀ (m : List (κ × ν)) (k k' : κ) (v : ν), k' ≠ k →
      alookup (insertA m k v) k' = alookup m k' := by
  intro m k k' v hne
  have hne2 : ¬ k = k' := fun h => hne h.symm
  induction m with
  | nil => simp [insertA, alookup, hne2]
  | cons kv rest ih =>
    obtain ⟨k2, v2⟩ := kv
    by_cases h : k2 = k
    · subst h
      simp [insertA, alookup, hne2]
    · simp only [insertA, if_neg h]
      by_cases h2 : k2 = k'
      · simp [alookup, h2]
      · simp [alookup, h2, ih]

/-- A successful lookup is a membership. -/
theorem alookup_mem {κ ν : Type} [DecidableEq κ] :
    ∀ (m : List (κ × ν)) (k : κ) (v : ν), alookup m k = some v → (k, v) ∈ m := by
  intro m k v h
  induction m with
  | nil => simp [alookup] at h
  | cons kv rest ih =>
    obtain ⟨k2, v2⟩ := kv
    by_cases h2 : k2 = k
    · subst h2
      simp [alookup] at h
      simp [h]
    · simp only [alookup, if_neg h2] at h
      exact List.mem_cons_of_mem _ (ih h)

/-- A key outside the key list looks up to nothing. -/
theorem alookup_eq_none {κ ν : Type} [DecidableEq κ] :
    ∀ (m : List (κ × ν)) (k : κ), k ∉ m.map Prod.fst → alookup m k = none := by
  intro m k h
  induction m with
  | nil => rfl
  | cons kv rest ih =>
    obtain ⟨k2, v2⟩ := kv
    simp only [List.map_cons, List.mem_cons] at h
    push_neg at h
    have h1 : ¬ k2 = k := fun he => h.1 he.symm
    simp only [alookup, if_neg h1]
    exact ih h.2

/-- Membership in an insertion result comes from the new binding or an old one. -/
theorem mem_insertA {κ ν : Type} [DecidableEq κ] :
    ∀ (m : List (κ × ν)) (k : κ) (v : ν) (k' : κ) (v' : ν),
      (k', v') ∈ insertA m k v → (k' = k ∧ v' = v) ∨ (k', v') ∈ m := by
  intro m k v k' v'
  induction m with
  | nil =>
    intro h
    simp [insertA] at h
    exact Or.inl h
  | cons kv rest ih =>
    obtain ⟨k2, v2⟩ := kv
    intro h
    by_cases h2 : k2 = k
    · subst h2
      simp only [insertA, eq_self_iff_true, ite_true, List.mem_cons] at h
      rcases h with h | h
      · rw [Prod.mk.injEq] at h
        exact Or.inl h
      · exact Or.inr (List.mem_cons_of_mem _ h)
    · simp only [insertA, if_neg h2, List.mem_cons] at h
      rcases h with h | h
      · exact Or.inr (by rw [h]; exact List.mem_cons_self _ _)
      · rcases ih h with h3 | h3
        · exact Or.inl h3
        · exact Or.inr (List.mem_cons_of_mem _ h3)

/-- The key list of an insertion: unchanged when the key was present, extended by
    the key otherwise. -/
theorem insertA_keys {κ ν : Type} [DecidableEq κ] :
    ∀ (m : List (κ × ν)) (k : κ) (v : ν), (insertA m k v).map Prod.fst =
      if k ∈ m.map Prod.fst then m.map Prod.fst else m.map Prod.fst ++ [k] := by
  intro m k v
  induction m with
  | nil => simp [insertA]
  | cons kv rest ih =>
    obtain ⟨k3, v3⟩ := kv
    by_cases h3 : k3 = k
    · subst h3
      simp [insertA]
    · have h3s : ¬ k = k3 := fun hh => h3 hh.symm
      simp only [insertA, if_neg h3, List.map_cons, ih, List.mem_cons]
      by_cases h4 : k ∈ rest.map Prod.fst
      · simp [h4, h3s]
      · simp [h4, h3s]

/-- Insertion preserves distinctness of keys. -/
theorem insertA_nodup_keys {κ ν : Type} [DecidableEq κ] :
    ∀ (m : List (κ × ν)) (k : κ) (v : ν), (m.map Prod.fst).Nodup →
      ((insertA m k v).map Prod.fst).Nodup := by
  intro m k v h
  rw [insertA_keys]
  by_cases h4 : k ∈ m.map Prod.fst
  · simpa [h4] using h
  · simp only [if_neg h4]
    rw [List.nodup_append]
    refine ⟨h, List.nodup_singleton _, ?_⟩
    intro a ha hb
    simp only [List.mem_singleton] at hb
    subst hb
    exact h4 ha

-- splitCh / joinCh lemmas ----------------------------------------------------------

/-- A split never produces the empty list of pieces. -/
theorem splitCh_ne_nil (sep : Char) : ∀ l : List Char, splitCh sep l ≠ [] := by
  intro l
  induction l with
  | nil => simp [splitCh]
  | cons c rest ih =>
    simp only [splitCh]
    by_cases h : c = sep
    · simp [h]
    · simp only [if_neg h]
      cases hr : splitCh sep rest with
      | nil => simp
      | cons hpiece t => simp

/-- No piece of a split contains the separator. -/
theorem not_mem_splitCh (sep : Char) :
    ∀ (l : List Char) (cs : List Char), cs ∈ splitCh sep l → sep ∉ cs := by
  intro l
  induction l with
  | nil =>
    intro cs h
    simp [splitCh] at h
    simp [h]
  | cons c rest ih =>
    intro cs h
    simp only [splitCh] at h
    by_cases hc : c = sep
    · rw [if_pos hc] at h
      rcases List.mem_cons.mp h with h | h
      · simp [h]
      · exact ih cs h
    · rw [if_neg hc] at h
      cases hr : splitCh sep rest with
      | nil => exact absurd hr (splitCh_ne_nil sep rest)
      | cons hpiece t =>
        rw [hr] at h
        rcases List.mem_cons.mp h with h | h
        · subst h
          intro hmem
          rcases List.mem_cons.mp hmem with h | h
          · exact hc h.symm
          · exact ih hpiece (hr ▸ List.mem_cons_self _ _) h
        · exact ih cs (hr ▸ List.mem_cons_of_mem _ h)

/-- Splitting a separator-free list yields that list as the single piece. -/
theorem splitCh_no_sep (sep : Char) :
    ∀ l : List Char, sep ∉ l → splitCh sep l = [l] := by
  intro l
  induction l with
  | nil => intro _; rfl
  | cons c rest ih =>
    intro h
    simp only [List.mem_cons] at h
    push_neg at h
    have hc : ¬ c = sep := fun hc => h.1 hc.symm
    simp only [splitCh, if_neg hc, ih h.2]

/-- Splitting distributes over a separator occurrence after a separator-free
    piece. -/
theorem splitCh_append_sep (sep : Char) :
    ∀ (x rest : List Char), sep ∉ x →
      splitCh sep (x ++ sep :: rest) = x :: splitCh sep rest := by
  intro x
  induction x with
  | nil => intro rest _; simp [splitCh]
  | cons c xs ih =>
    intro rest h
    simp only [List.mem_cons] at h
    push_neg at h
    have hc : ¬ c = sep := fun hc => h.1 hc.symm
    simp only [List.cons_append, splitCh, if_neg hc, List.append_eq]
    rw [ih rest h.2]

/-- Splitting inverts joining for separator-free pieces. -/
theorem splitCh_joinCh (sep : Char) :
    ∀ L : List (List Char), L ≠ [] → (∀ x ∈ L, sep ∉ x) →
      splitCh sep (joinCh sep L) = L := by
  intro L
  induction L with
  | nil => intro h _; exact absurd rfl h
  | cons x t ih =>
    intro _ hall
    cases t with
    | nil =>
      simp only [joinCh]
      exact splitCh_no_sep sep x (hall x (List.mem_cons_self _ _))
    | cons y t2 =>
      simp only [joinCh]
      rw [splitCh_append_sep sep x _ (hall x (List.mem_cons_self _ _))]
      rw [ih (by simp) (fun z hz => hall z (List.mem_cons_of_mem _ hz))]

/-- Strings are their character lists. -/
theorem string_mk_toList (s : String) : String.mk s.toList = s := rfl

/-- Splitting a string never yields the empty segment list. -/
theorem splitSlash_ne_nil (s : String) : splitSlash s ≠ [] := by
  simp only [splitSlash, ne_eq, List.map_eq_nil_iff]
  exact splitCh_ne_nil '/' s.toList

/-- No segment of a slash split contains a slash. -/
theorem not_slash_mem_splitSlash (s : String) :
    ∀ x ∈ splitSlash s, ('/' : Char) ∉ x.toList := by
  intro x hx
  simp only [splitSlash, List.mem_map] at hx
  obtain ⟨cs, hcs, rfl⟩ := hx
  simpa using not_mem_splitCh '/' s.toList cs hcs

/-- Splitting on `/` inverts joining with `/` when no segment contains a slash. -/
theorem splitSlash_joinSlash :
    ∀ L : List String, L ≠ [] → (∀ s ∈ L, ('/' : Char) ∉ s.toList) →
      splitSlash (joinSlash L) = L := by
  intro L hne hall
  simp only [splitSlash, joinSlash]
  have h1 : (String.mk (joinCh '/' (L.map String.toList))).toList =
      joinCh '/' (L.map String.toList) := rfl
  rw [h1, splitCh_joinCh '/' (L.map String.toList)
    (by simpa using hne)
    (by
      intro x hx
      simp only [List.mem_map] at hx
      obtain ⟨s, hs, rfl⟩ := hx
      exact hall s hs)]
  rw [List.map_map]
  have : (String.mk ∘ String.toList) = id := by
    funext s
    exact string_mk_toList s
  rw [this, List.map_id]

-- pushAlpha lemmas -----------------------------------------------------------------

/-- The RGB8 normalization of a 3k-byte buffer has 4k bytes. -/
theorem pushAlpha_length : ∀ (k : Nat) (l : List Nat), l.length = 3 * k →
    (pushAlpha l).length = 4 * k := by
  intro k
  induction k with
  | zero =>
    intro l h
    have : l = [] := List.length_eq_zero.mp (by omega)
    subst this
    rfl
  | succ n ih =>
    intro l h
    cases l with
    | nil => simp at h
    | cons a l1 =>
      cases l1 with
      | nil => simp at h; omega
      | cons b l2 =>
        cases l2 with
        | nil => simp at h; omega
        | cons c rest =>
          simp only [List.length_cons] at h
          have hr : rest.length = 3 * n := by omega
          simp only [pushAlpha, List.length_cons, ih rest hr]
          omega

/-- The color bytes of the RGB8 normalization: the byte at offset `4*i + j`
    (j < 3) of the output is the byte at offset `3*i + j` of the input. -/
theorem pushAlpha_get_rgb : ∀ (i k : Nat) (l : List Nat), l.length = 3 * k → i < k →
    ∀ j, j < 3 → (pushAlpha l).get? (4 * i + j) = l.get? (3 * i + j) := by
  intro i
  induction i with
  | zero =>
    intro k l hlen hik j hj
    cases k with
    | zero => omega
    | succ n =>
      cases l with
      | nil => simp at hlen
      | cons a l1 =>
        cases l1 with
        | nil => simp at hlen; omega
        | cons b l2 =>
          cases l2 with
          | nil => simp at hlen; omega
          | cons c rest =>
            interval_cases j <;> rfl
  | succ n ih =>
    intro k l hlen hik j hj
    cases k with
    | zero => omega
    | succ kk =>
      cases l with
      | nil => simp at hlen
      | cons a l1 =>
        cases l1 with
        | nil => simp at hlen; omega
        | cons b l2 =>
          cases l2 with
          | nil => simp at hlen; omega
          | cons c rest =>
            simp only [List.length_cons] at hlen
            have hr : rest.length = 3 * kk := by omega
            have e1 : 4 * Nat.succ n + j = ((((4 * n + j) + 1) + 1) + 1) + 1 := by omega
            have e2 : 3 * Nat.succ n + j = (((3 * n + j) + 1) + 1) + 1 := by omega
            rw [e1, e2]
            simp only [pushAlpha, List.get?_cons_succ]
            exact ih kk rest hr (by omega) j hj

/-- The alpha bytes of the RGB8 normalization: every 4th output byte is 255. -/
theorem pushAlpha_get_alpha : ∀ (i k : Nat) (l : List Nat), l.length = 3 * k → i < k →
    (pushAlpha l).get? (4 * i + 3) = some 255 := by
  intro i
  induction i with
  | zero =>
    intro k l hlen hik
    cases k with
    | zero => omega
    | succ n =>
      cases l with
      | nil => simp at hlen
      | cons a l1 =>
        cases l1 with
        | nil => simp at hlen; omega
        | cons b l2 =>
          cases l2 with
          | nil => simp at hlen; omega
          | cons c rest => rfl
  | succ n ih =>
    intro k l hlen hik
    cases k with
    | zero => omega
    | succ kk =>
      cases l with
      | nil => simp at hlen
      | cons a l1 =>
        cases l1 with
        | nil => simp at hlen; omega
        | cons b l2 =>
          cases l2 with
          | nil => simp at hlen; omega
          | cons c rest =>
            simp only [List.length_cons] at hlen
            have hr : rest.length = 3 * kk := by omega
            have e1 : 4 * Nat.succ n + 3 = ((((4 * n + 3) + 1) + 1) + 1) + 1 := by omega
            rw [e1]
            simp only [pushAlpha, List.get?_cons_succ]
            exact ih kk rest hr (by omega)

-- Ingestion pipeline lemmas --------------------------------------------------------

/-- A produced texture asset records the file name as its path, the entry's
    modified time, the drawn uid, no thumbnail, and comes from the `"png"` arm. -/
theorem process_texture_fields : ∀ (e : DirEntry) (fn ext : String) (a : Asset),
    process_texture e fn ext = some a →
    ext = "png" ∧ a.path = fn ∧ a.timestamp = e.mtime ∧ a.uid = e.uid ∧
      a.thumbnail_id = none := by
  intro e fn ext a h
  unfold process_texture at h
  by_cases hx : ext = "png"
  · rw [if_pos hx] at h
    split at h
    · simp only [Option.some.injEq] at h
      subst h; exact ⟨hx, rfl, rfl, rfl, rfl⟩
    · simp only [Option.some.injEq] at h
      subst h; exact ⟨hx, rfl, rfl, rfl, rfl⟩
    · exact absurd h (by simp)
  · rw [if_neg hx] at h
    exact absurd h (by simp)

/-- Every texture asset the pipeline produces is tagged RGBA8-sRGB. -/
theorem process_texture_format : ∀ (e : DirEntry) (fn ext : String) (a : Asset)
    (td : TextureAssetData),
    process_texture e fn ext = some a → a.data = AssetData.Texture td →
    td.settings.format = Format.R8G8B8A8Srgb := by
  intro e fn ext a td h hdata
  unfold process_texture at h
  by_cases hx : ext = "png"
  · rw [if_pos hx] at h
    split at h
    · simp only [Option.some.injEq] at h
      subst h
      simp only [mkTexAsset, AssetData.Texture.injEq] at hdata
      rw [← hdata]
    · simp only [Option.some.injEq] at h
      subst h
      simp only [mkTexAsset, AssetData.Texture.injEq] at hdata
      rw [← hdata]
    · exact absurd h (by simp)
  · rw [if_neg hx] at h
    exact absurd h (by simp)

/-- A produced asset names its entry's file name and carries entry timestamp and
    uid (`process_file` version). -/
theorem process_file_fields : ∀ (e : DirEntry) (a : Asset),
    process_file e = some a →
    a.path = entryFileName e ∧ a.timestamp = e.mtime ∧ a.uid = e.uid := by
  intro e a h
  unfold process_file at h
  split at h
  · split at h
    · obtain ⟨-, h1, h2, h3, -⟩ := process_texture_fields _ _ _ _ h
      exact ⟨h1, h2, h3⟩
    · exact absurd h (by simp)
  · exact absurd h (by simp)

/-- `process_file` produces an asset only from an entry whose extension is the
    exact string `png`. -/
theorem process_file_ext : ∀ (e : DirEntry) (a : Asset),
    process_file e = some a → extensionOf (entryFileName e) = some "png" := by
  intro e a h
  unfold process_file at h
  split at h
  case h_1 ext heq =>
    split at h
    · obtain ⟨hpng, -, -, -, -⟩ := process_texture_fields _ _ _ _ h
      rw [heq, hpng]
    · exact absurd h (by simp)
  case h_2 => exact absurd h (by simp)

-- Tree walking lemmas --------------------------------------------------------------

/-- `subtreeAt` decomposes over path concatenation. -/
theorem subtreeAt_append : ∀ (p q : List String) (t : FileTreeNode),
    subtreeAt t (p ++ q) = (subtreeAt t p).bind (fun n => subtreeAt n q) := by
  intro p
  induction p with
  | nil => intro q t; simp [subtreeAt]
  | cons s p' ih =>
    intro q t
    cases t with
    | File a => simp [subtreeAt]
    | Directory m =>
      simp only [List.cons_append, subtreeAt]
      cases alookup m s with
      | none => simp
      | some n => simpa using ih q n

/-- A successful directory update returns a directory node. -/
theorem updateAtDir_isDir {Out : Type} :
    ∀ (d : List String) (t t' : FileTreeNode)
      (f : List (String × FileTreeNode) → List (String × FileTreeNode) × Out) (out : Out),
    updateAtDir t d f = some (t', out) → ∃ mm, t' = FileTreeNode.Directory mm := by
  intro d t t' f out h
  cases d with
  | nil =>
    cases t with
    | File a => simp [updateAtDir] at h
    | Directory m =>
      simp only [updateAtDir, Option.some.injEq, Prod.mk.injEq] at h
      exact ⟨(f m).1, h.1.symm⟩
  | cons s d' =>
    cases t with
    | File a => simp [updateAtDir] at h
    | Directory m =>
      simp only [updateAtDir] at h
      cases hrec : updateAtDir ((alookup m s).getD (FileTreeNode.Directory [])) d' f with
      | none => rw [hrec] at h; simp at h
      | some pr =>
        rw [hrec] at h
        obtain ⟨child2, out2⟩ := pr
        simp only [Option.some.injEq, Prod.mk.injEq] at h
        exact ⟨insertA m s child2, h.1.symm⟩

/-- A file node can never be updated as a directory. -/
theorem updateAtDir_file {Out : Type} :
    ∀ (d : List String) (a : Asset)
      (f : List (String × FileTreeNode) → List (String × FileTreeNode) × Out),
    updateAtDir (FileTreeNode.File a) d f = none := by
  intro d a f
  cases d <;> rfl

/-- Characterization of a successful directory update: the effective map `m` at
    the path exists in the source tree, the returned extra output is `(f m).2`,
    and in the updated tree both the effective map and the materialized subtree at
    the path hold `(f m).1`. -/
theorem updateAtDir_effMapAt {Out : Type} :
    ∀ (d : List String) (t t' : FileTreeNode)
      (f : List (String × FileTreeNode) → List (String × FileTreeNode) × Out) (out : Out),
    updateAtDir t d f = some (t', out) →
    ∃ m, effMapAt t d = some m ∧ out = (f m).2 ∧
      effMapAt t' d = some (f m).1 ∧
      subtreeAt t' d = some (FileTreeNode.Directory (f m).1) := by
  intro d
  induction d with
  | nil =>
    intro t t' f out h
    cases t with
    | File a => simp [updateAtDir] at h
    | Directory m =>
      simp only [updateAtDir, Option.some.injEq, Prod.mk.injEq] at h
      obtain ⟨ht', hout⟩ := h
      subst ht'
      exact ⟨m, rfl, hout.symm, rfl, rfl⟩
  | cons s d' ih =>
    intro t t' f out h
    cases t with
    | File a => simp [updateAtDir] at h
    | Directory m =>
      simp only [updateAtDir] at h
      cases hrec : updateAtDir ((alookup m s).getD (FileTreeNode.Directory [])) d' f with
      | none => rw [hrec] at h; simp at h
      | some pr =>
        rw [hrec] at h
        obtain ⟨child2, out2⟩ := pr
        simp only [Option.some.injEq, Prod.mk.injEq] at h
        obtain ⟨ht', hout⟩ := h
        subst ht'
        subst hout
        obtain ⟨m0, hm0, hout0, heff, hsub⟩ := ih _ _ f _ hrec
        refine ⟨m0, ?_, hout0, ?_, ?_⟩
        · simpa [effMapAt] using hm0
        · simp only [effMapAt, alookup_insertA_self, Option.getD_some]
          exact heff
        · simp only [subtreeAt, alookup_insertA_self]
          exact hsub

/-- After a directory update that inserts a `File` at key `k` of the target map,
    the full path `d ++ [k]` resolves to that file. -/
theorem resolveFile_after_insert {Out : Type} :
    ∀ (d : List String) (t t' : FileTreeNode)
      (f : List (String × FileTreeNode) → List (String × FileTreeNode) × Out) (out : Out)
      (k : String) (A : Asset),
    updateAtDir t d f = some (t', out) →
    (∀ m, effMapAt t d = some m → (f m).1 = insertA m k (FileTreeNode.File A)) →
    resolveFile t' (d ++ [k]) = some A := by
  intro d t t' f out k A h hf
  obtain ⟨m0, hm0, -, -, hsub⟩ := updateAtDir_effMapAt d t t' f out h
  unfold resolveFile
  rw [subtreeAt_append, hsub]
  simp [subtreeAt, hf m0 hm0, alookup_insertA_self]

/-- One-step unfolding of `resolveFile` at a directory node. -/
theorem resolveFile_dir_cons (m : List (String × FileTreeNode)) (s : String)
    (q : List String) :
    resolveFile (FileTreeNode.Directory m) (s :: q) =
      match alookup m s with
      | some n => resolveFile n q
      | none => none := by
  unfold resolveFile
  simp only [subtreeAt]
  cases alookup m s <;> rfl

/-- Resolutions outside the updated full path survive a directory update: the
    update only materializes directories along its path and changes the target map
    at the single key `k0`. -/
theorem resolveFile_frame {Out : Type} :
    ∀ (d : List String) (t t' : FileTreeNode)
      (f : List (String × FileTreeNode) → List (String × FileTreeNode) × Out) (out : Out)
      (k0 : String),
    updateAtDir t d f = some (t', out) →
    (∀ m k', k' ≠ k0 → alookup (f m).1 k' = alookup m k') →
    ∀ q a, preOf (d ++ [k0]) q = false →
      resolveFile t q = some a → resolveFile t' q = some a := by
  intro d
  induction d with
  | nil =>
    intro t t' f out k0 h hf q a hpre hres
    cases t with
    | File a2 => simp [updateAtDir] at h
    | Directory m =>
      simp only [updateAtDir, Option.some.injEq, Prod.mk.injEq] at h
      obtain ⟨ht', -⟩ := h
      subst ht'
      cases q with
      | nil => simp [resolveFile, subtreeAt] at hres
      | cons s q' =>
        have hs : s ≠ k0 := by
          intro he
          subst he
          simp [preOf] at hpre
        rw [resolveFile_dir_cons] at hres ⊢
        rw [hf m s hs]
        exact hres
  | cons s0 d' ih =>
    intro t t' f out k0 h hf q a hpre hres
    cases t with
    | File a2 => simp [updateAtDir] at h
    | Directory m =>
      simp only [updateAtDir] at h
      cases hrec : updateAtDir ((alookup m s0).getD (FileTreeNode.Directory [])) d' f with
      | none => rw [hrec] at h; simp at h
      | some pr =>
        rw [hrec] at h
        obtain ⟨child2, out2⟩ := pr
        simp only [Option.some.injEq, Prod.mk.injEq] at h
        obtain ⟨ht', -⟩ := h
        subst ht'
        cases q with
        | nil => simp [resolveFile, subtreeAt] at hres
        | cons s q' =>
          rw [resolveFile_dir_cons] at hres ⊢
          by_cases hss : s = s0
          · subst hss
            cases hl : alookup m s with
            | none => rw [hl] at hres; exact absurd hres (by simp)
            | some n =>
              rw [hl] at hres
              rw [alookup_insertA_self]
              have hpre' : preOf (d' ++ [k0]) q' = false := by
                simpa [preOf, List.cons_append] using hpre
              have hchild : (alookup m s).getD (FileTreeNode.Directory []) = n := by
                rw [hl]; rfl
              rw [hchild] at hrec
              exact ih n child2 f out2 k0 hrec hf q' a hpre' hres
          · rw [alookup_insertA_ne _ _ _ _ hss]
            exact hres

/-- Replacing a key already bound to a directory by another directory (or
    appending a fresh directory binding) does not change the reconciliation
    scan, which only looks at `File` children. -/
theorem findMatch_insertA_dir :
    ∀ (m : List (String × FileTreeNode)) (s fn : String)
      (mm' : List (String × FileTreeNode)),
    (alookup m s = none ∨ ∃ mm, alookup m s = some (FileTreeNode.Directory mm)) →
    findMatch (insertA m s (FileTreeNode.Directory mm')) fn = findMatch m fn := by
  intro m
  induction m with
  | nil => intro s fn mm' _; rfl
  | cons kv rest ih =>
    obtain ⟨k2, v2⟩ := kv
    intro s fn mm' hv
    by_cases h2 : k2 = s
    · subst h2
      have hl : alookup ((k2, v2) :: rest) k2 = some v2 := by simp [alookup]
      rcases hv with hv | ⟨mm, hv⟩
      · rw [hl] at hv; exact absurd hv (by simp)
      · rw [hl] at hv
        simp only [Option.some.injEq] at hv
        subst hv
        simp [insertA, findMatch]
    · have hlrest : alookup ((k2, v2) :: rest) s = alookup rest s := by
        simp [alookup, h2]
      have hv2 : alookup rest s = none ∨
          ∃ mm, alookup rest s = some (FileTreeNode.Directory mm) := by
        rw [← hlrest]; exact hv
      simp only [insertA, if_neg h2]
      cases v2 with
      | Directory mm2 =>
        simp only [findMatch]
        exact ih s fn mm' hv2
      | File a2 =>
        simp only [findMatch]
        by_cases hname : rustFileName a2.path = some fn
        · simp [hname]
        · simp only [if_neg hname]
          exact ih s fn mm' hv2

/-- The effective map below a `File` node is the panic case. -/
theorem effMapAt_file (a : Asset) (p : List String) :
    effMapAt (FileTreeNode.File a) p = none := by
  cases p <;> rfl

/-- The old binding at the walk segment of a successful update is a directory or
    absent: a `File` there would have made the recursive update panic. -/
theorem updateAtDir_old_child {Out : Type}
    (m : List (String × FileTreeNode)) (s0 : String) (d' : List String)
    (f : List (String × FileTreeNode) → List (String × FileTreeNode) × Out)
    (pr : FileTreeNode × Out)
    (hrec : updateAtDir ((alookup m s0).getD (FileTreeNode.Directory [])) d' f = some pr) :
    alookup m s0 = none ∨ ∃ mm, alookup m s0 = some (FileTreeNode.Directory mm) := by
  cases hl : alookup m s0 with
  | none => exact Or.inl rfl
  | some n =>
    cases n with
    | Directory mm => exact Or.inr ⟨mm, rfl⟩
    | File a2 =>
      rw [hl] at hrec
      simp only [Option.getD_some] at hrec
      rw [updateAtDir_file] at hrec
      exact absurd hrec (by simp)

/-- A directory update whose map function changes nothing leaves every
    reconciliation scan unchanged (it only materializes empty directories). -/
theorem findMatchAt_id_update {Out : Type} :
    ∀ (d : List String) (t t' : FileTreeNode)
      (f : List (String × FileTreeNode) → List (String × FileTreeNode) × Out) (out : Out),
    updateAtDir t d f = some (t', out) →
    (∀ m, effMapAt t d = some m → (f m).1 = m) →
    ∀ p fn, findMatchAt t' p fn = findMatchAt t p fn := by
  intro d
  induction d with
  | nil =>
    intro t t' f out h hf p fn
    cases t with
    | File a => simp [updateAtDir] at h
    | Directory m =>
      simp only [updateAtDir, Option.some.injEq, Prod.mk.injEq] at h
      obtain ⟨ht', -⟩ := h
      subst ht'
      rw [hf m rfl]
  | cons s0 d' ih =>
    intro t t' f out h hf p fn
    cases t with
    | File a => simp [updateAtDir] at h
    | Directory m =>
      simp only [updateAtDir] at h
      cases hrec : updateAtDir ((alookup m s0).getD (FileTreeNode.Directory [])) d' f with
      | none => rw [hrec] at h; simp at h
      | some pr =>
        rw [hrec] at h
        obtain ⟨child2, out2⟩ := pr
        simp only [Option.some.injEq, Prod.mk.injEq] at h
        obtain ⟨ht', -⟩ := h
        subst ht'
        obtain ⟨mm2, hc2⟩ := updateAtDir_isDir d' _ _ f _ hrec
        have holdchild := updateAtDir_old_child m s0 d' f _ hrec
        cases p with
        | nil =>
          subst hc2
          show (some (insertA m s0 (FileTreeNode.Directory mm2))).bind
              (fun mp => findMatch mp fn) = (some m).bind (fun mp => findMatch mp fn)
          simp only [Option.some_bind]
          exact findMatch_insertA_dir m s0 fn mm2 holdchild
        | cons s p' =>
          by_cases hss : s = s0
          · subst hss
            have hnew : findMatchAt (FileTreeNode.Directory (insertA m s child2))
                (s :: p') fn = findMatchAt child2 p' fn := by
              simp [findMatchAt, effMapAt, alookup_insertA_self]
            have hold : findMatchAt (FileTreeNode.Directory m) (s :: p') fn =
                findMatchAt ((alookup m s).getD (FileTreeNode.Directory [])) p' fn := by
              simp [findMatchAt, effMapAt]
            rw [hnew, hold]
            exact ih _ _ f _ hrec hf p' fn
          · show findMatchAt (FileTreeNode.Directory (insertA m s0 child2)) (s :: p') fn =
              findMatchAt (FileTreeNode.Directory m) (s :: p') fn
            simp [findMatchAt, effMapAt, alookup_insertA_ne _ _ _ _ hss]

/-- Reconciliation scans away from the updated full path survive a directory
    update whose map function changes at most the binding of `k0`. -/
theorem findMatchAt_frame {Out : Type} :
    ∀ (d : List String) (t t' : FileTreeNode)
      (f : List (String × FileTreeNode) → List (String × FileTreeNode) × Out) (out : Out)
      (k0 : String),
    updateAtDir t d f = some (t', out) →
    (∀ m k', k' ≠ k0 → alookup (f m).1 k' = alookup m k') →
    ∀ p fn, p ≠ d → preOf (d ++ [k0]) p = false →
      findMatchAt t' p fn = findMatchAt t p fn := by
  intro d
  induction d with
  | nil =>
    intro t t' f out k0 h hf p fn hpd hpre
    cases t with
    | File a => simp [updateAtDir] at h
    | Directory m =>
      simp only [updateAtDir, Option.some.injEq, Prod.mk.injEq] at h
      obtain ⟨ht', -⟩ := h
      subst ht'
      cases p with
      | nil => exact absurd rfl hpd
      | cons s p' =>
        have hs : s ≠ k0 := by
          intro he
          subst he
          simp [preOf] at hpre
        show findMatchAt (FileTreeNode.Directory (f m).1) (s :: p') fn =
          findMatchAt (FileTreeNode.Directory m) (s :: p') fn
        simp [findMatchAt, effMapAt, hf m s hs]
  | cons s0 d' ih =>
    intro t t' f out k0 h hf p fn hpd hpre
    cases t with
    | File a => simp [updateAtDir] at h
    | Directory m =>
      simp only [updateAtDir] at h
      cases hrec : updateAtDir ((alookup m s0).getD (FileTreeNode.Directory [])) d' f with
      | none => rw [hrec] at h; simp at h
      | some pr =>
        rw [hrec] at h
        obtain ⟨child2, out2⟩ := pr
        simp only [Option.some.injEq, Prod.mk.injEq] at h
        obtain ⟨ht', -⟩ := h
        subst ht'
        obtain ⟨mm2, hc2⟩ := updateAtDir_isDir d' _ _ f _ hrec
        have holdchild := updateAtDir_old_child m s0 d' f _ hrec
        cases p with
        | nil =>
          subst hc2
          show (some (insertA m s0 (FileTreeNode.Directory mm2))).bind
              (fun mp => findMatch mp fn) = (some m).bind (fun mp => findMatch mp fn)
          simp only [Option.some_bind]
          exact findMatch_insertA_dir m s0 fn mm2 holdchild
        | cons s p' =>
          by_cases hss : s = s0
          · subst hss
            have hnew : findMatchAt (FileTreeNode.Directory (insertA m s child2))
                (s :: p') fn = findMatchAt child2 p' fn := by
              simp [findMatchAt, effMapAt, alookup_insertA_self]
            have hold : findMatchAt (FileTreeNode.Directory m) (s :: p') fn =
                findMatchAt ((alookup m s).getD (FileTreeNode.Directory [])) p' fn := by
              simp [findMatchAt, effMapAt]
            rw [hnew, hold]
            have hpd' : p' ≠ d' := by
              intro he
              exact hpd (by rw [he])
            have hpre' : preOf (d' ++ [k0]) p' = false := by
              simpa [preOf, List.cons_append] using hpre
            exact ih _ _ f _ k0 hrec hf p' fn hpd' hpre'
          · show findMatchAt (FileTreeNode.Directory (insertA m s0 child2)) (s :: p') fn =
              findMatchAt (FileTreeNode.Directory m) (s :: p') fn
            simp [findMatchAt, effMapAt, alookup_insertA_ne _ _ _ _ hss]

-- KeysOK machinery -----------------------------------------------------------------

/-- Inversion for `KeysOK` at a directory node. -/
theorem KeysOK_dir_inv {m : List (String × FileTreeNode)} :
    KeysOK (FileTreeNode.Directory m) →
    (∀ k n, (k, n) ∈ m → KeysOK n) ∧
      (∀ k a, (k, FileTreeNode.File a) ∈ m → a.path = k) ∧
      (m.map Prod.fst).Nodup := by
  intro h
  cases h with
  | dir m h1 h2 h3 => exact ⟨h1, h2, h3⟩

/-- The empty directory is well-formed. -/
theorem KeysOK_empty : KeysOK (FileTreeNode.Directory []) := by
  refine KeysOK.dir [] ?_ ?_ ?_
  · intro k n h; simp at h
  · intro k a h; simp at h
  · simp

/-- Under `KeysOK`, the reconciliation scan is a map lookup: the only `File`
    child whose stored path has file name `fn` is the one stored under key `fn`. -/
theorem findMatch_eq_alookup : ∀ (m : List (String × FileTreeNode)),
    KeysOK (FileTreeNode.Directory m) → ∀ fn,
    findMatch m fn =
      match alookup m fn with
      | some (FileTreeNode.File a) => some a
      | _ => none := by
  intro m
  induction m with
  | nil => intro _ fn; rfl
  | cons kv rest ih =>
    obtain ⟨k2, v2⟩ := kv
    intro hok fn
    obtain ⟨hch, hpath, hnodup⟩ := KeysOK_dir_inv hok
    have hokrest : KeysOK (FileTreeNode.Directory rest) := by
      refine KeysOK.dir rest ?_ ?_ ?_
      · intro k n hm; exact hch k n (List.mem_cons_of_mem _ hm)
      · intro k a hm; exact hpath k a (List.mem_cons_of_mem _ hm)
      · simp only [List.map_cons, List.nodup_cons] at hnodup
        exact hnodup.2
    have hk2notin : k2 ∉ rest.map Prod.fst := by
      simp only [List.map_cons, List.nodup_cons] at hnodup
      exact hnodup.1
    cases v2 with
    | Directory mm =>
      by_cases hk : k2 = fn
      · subst hk
        have hnone : alookup rest k2 = none := alookup_eq_none rest k2 hk2notin
        simp [findMatch, alookup, ih hokrest, hnone]
      · simp [findMatch, alookup, hk, ih hokrest]
    | File a2 =>
      have hpa : a2.path = k2 := hpath k2 a2 (List.mem_cons_self _ _)
      have hrfn : rustFileName a2.path = some a2.path := by
        have hf := hch k2 (FileTreeNode.File a2) (List.mem_cons_self _ _)
        cases hf with
        | file _ hv => exact hv
      by_cases hk : k2 = fn
      · subst hk
        have hr2 : rustFileName a2.path = some k2 := by rw [hrfn, hpa]
        simp [findMatch, alookup, hr2]
      · have hne : rustFileName a2.path ≠ some fn := by
          rw [hrfn, hpa]
          simp [hk]
        simp [findMatch, alookup, hk, hne, ih hokrest]

/-- `KeysOK` survives a directory update whose map function preserves it. -/
theorem KeysOK_updateAtDir {Out : Type} :
    ∀ (d : List String) (t t' : FileTreeNode)
      (f : List (String × FileTreeNode) → List (String × FileTreeNode) × Out) (out : Out),
    updateAtDir t d f = some (t', out) →
    (∀ m, KeysOK (FileTreeNode.Directory m) → KeysOK (FileTreeNode.Directory (f m).1)) →
    KeysOK t → KeysOK t' := by
  intro d
  induction d with
  | nil =>
    intro t t' f out h hf hok
    cases t with
    | File a => simp [updateAtDir] at h
    | Directory m =>
      simp only [updateAtDir, Option.some.injEq, Prod.mk.injEq] at h
      obtain ⟨ht', -⟩ := h
      subst ht'
      exact hf m hok
  | cons s0 d' ih =>
    intro t t' f out h hf hok
    cases t with
    | File a => simp [updateAtDir] at h
    | Directory m =>
      simp only [updateAtDir] at h
      cases hrec : updateAtDir ((alookup m s0).getD (FileTreeNode.Directory [])) d' f with
      | none => rw [hrec] at h; simp at h
      | some pr =>
        rw [hrec] at h
        obtain ⟨child2, out2⟩ := pr
        simp only [Option.some.injEq, Prod.mk.injEq] at h
        obtain ⟨ht', -⟩ := h
        subst ht'
        obtain ⟨hch, hpath, hnodup⟩ := KeysOK_dir_inv hok
        have hchildok : KeysOK ((alookup m s0).getD (FileTreeNode.Directory [])) := by
          cases hl : alookup m s0 with
          | none => exact KeysOK_empty
          | some n =>
            simp only [Option.getD_some]
            exact hch s0 n (alookup_mem m s0 n hl)
        have hchild2ok : KeysOK child2 := ih _ _ f _ hrec hf hchildok
        obtain ⟨mm2, hc2⟩ := updateAtDir_isDir d' _ _ f _ hrec
        refine KeysOK.dir _ ?_ ?_ ?_
        · intro k n hm
          rcases mem_insertA m s0 child2 k n hm with ⟨-, hn⟩ | hm2
          · subst hn; exact hchild2ok
          · exact hch k n hm2
        · intro k a hm
          rcases mem_insertA m s0 child2 k (FileTreeNode.File a) hm with ⟨-, hn⟩ | hm2
          · rw [hc2] at hn; exact absurd hn (by simp)
          · exact hpath k a hm2
        · exact insertA_nodup_keys m s0 child2 hnodup

-- Reconcile characterization -------------------------------------------------------

/-- A matching child with the entry's timestamp suppresses ingestion: the map,
    the record and the ingestion count are all unchanged. -/
theorem reconcile_skip (m : List (String × FileTreeNode)) (e : DirEntry)
    (filename : String) (a : Asset) :
    findMatch m filename = some a → a.timestamp = e.mtime →
    reconcile m e filename = (m, (none, 0)) := by
  intro hm ht
  unfold reconcile shouldProcess
  rw [hm]
  simp [ht]

/-- When processing is due but the entry is not ingestible, nothing changes. -/
theorem reconcile_go_none (m : List (String × FileTreeNode)) (e : DirEntry)
    (filename : String) :
    process_file e = none →
    reconcile m e filename = (m, (none, 0)) := by
  intro hp
  unfold reconcile
  rw [hp]
  split <;> rfl

/-- When processing is due and ingestion produces an asset, the asset is inserted
    under the file-name key and reported. -/
theorem reconcile_go_some (m : List (String × FileTreeNode)) (e : DirEntry)
    (filename : String) (A : Asset) :
    shouldProcess m e filename = true → process_file e = some A →
    reconcile m e filename =
      (insertA m filename (FileTreeNode.File A), (some A, 1)) := by
  intro hs hp
  unfold reconcile
  rw [hs, hp]
  rfl

/-- The reconciliation result changes the target map at most at the file-name
    key. -/
theorem reconcile_frame (m : List (String × FileTreeNode)) (e : DirEntry)
    (filename k' : String) :
    k' ≠ filename →
    alookup (reconcile m e filename).1 k' = alookup m k' := by
  intro hk
  unfold reconcile
  split
  · split
    · exact alookup_insertA_ne _ _ _ _ hk
    · rfl
  · rfl

/-- The reconciliation result map is either the input map or a file insertion at
    the file-name key. -/
theorem reconcile_cases (m : List (String × FileTreeNode)) (e : DirEntry)
    (filename : String) :
    (reconcile m e filename).1 = m ∨
      ∃ A, process_file e = some A ∧
        (reconcile m e filename).1 = insertA m filename (FileTreeNode.File A) := by
  unfold reconcile
  split
  · cases hp : process_file e with
    | none => exact Or.inl rfl
    | some A => exact Or.inr ⟨A, rfl, rfl⟩
  · exact Or.inl rfl

-- Rescan loop basics ---------------------------------------------------------------

/-- Whenever the rescan loop completes it reports `Ok(())`: the code has no path
    that returns an error value. -/
theorem rescanGo_result : ∀ (walk : List WalkItem) (reg : AssetRegistry) (ing : Nat)
    (recd : List (Nat × String)) (out : RescanOut),
    rescanGo reg walk ing recd = some out → out.result = Except.ok () := by
  intro walk
  induction walk with
  | nil =>
    intro reg ing recd out h
    simp only [rescanGo, Option.some.injEq] at h
    rw [← h]
  | cons item rest ih =>
    intro reg ing recd out h
    cases item with
    | err msg => exact ih _ _ _ _ h
    | ok e =>
      simp only [rescanGo] at h
      split at h
      · exact ih _ _ _ _ h
      · cases hstep : rescanStep reg e with
        | none => rw [hstep] at h; simp at h
        | some pr =>
          rw [hstep] at h
          obtain ⟨reg2, recOpt, cnt⟩ := pr
          exact ih _ _ _ _ h

-- Prefix test lemmas ---------------------------------------------------------------

/-- Every list is a prefix of itself. -/
theorem preOf_refl {α : Type} [DecidableEq α] : ∀ l : List α, preOf l l = true := by
  intro l
  induction l with
  | nil => rfl
  | cons a t ih => simp [preOf, ih]

/-- A list is a prefix of itself extended. -/
theorem preOf_append {α : Type} [DecidableEq α] : ∀ p q : List α,
    preOf p (p ++ q) = true := by
  intro p q
  induction p with
  | nil => rfl
  | cons a t ih => simp [preOf, ih]

/-- The prefix test is transitive. -/
theorem preOf_trans {α : Type} [DecidableEq α] : ∀ (a b c : List α),
    preOf a b = true → preOf b c = true → preOf a c = true := by
  intro a
  induction a with
  | nil => intro b c _ _; rfl
  | cons x a' ih =>
    intro b c hab hbc
    cases b with
    | nil => simp [preOf] at hab
    | cons y b' =>
      simp only [preOf, Bool.and_eq_true, decide_eq_true_eq] at hab
      obtain ⟨hxy, hab'⟩ := hab
      subst hxy
      cases c with
      | nil => simp [preOf] at hbc
      | cons z c' =>
        simp only [preOf, Bool.and_eq_true, decide_eq_true_eq] at hbc
        obtain ⟨hyz, hbc'⟩ := hbc
        subst hyz
        simp only [preOf, Bool.and_eq_true, decide_eq_true_eq]
        exact ⟨by simp, ih b' c' hab' hbc'⟩

/-- Lists that fail the prefix test are distinct. -/
theorem ne_of_preOf_false {α : Type} [DecidableEq α] {p q : List α}
    (h : preOf p q = false) : p ≠ q := by
  intro he
  subst he
  rw [preOf_refl] at h
  exact absurd h (by simp)

/-- `dropLast` is a prefix. -/
theorem preOf_dropLast {α : Type} [DecidableEq α] : ∀ l : List α,
    preOf l.dropLast l = true := by
  intro l
  induction l with
  | nil => rfl
  | cons a t ih =>
    cases t with
    | nil => rfl
    | cons b t2 =>
      simp only [List.dropLast_cons₂, preOf, Bool.and_eq_true, decide_eq_true_eq]
      exact ⟨by simp, ih⟩

-- stepSegs decomposition -----------------------------------------------------------

/-- Dropping the head does not change the last element of a list that stays
    nonempty. -/
theorem drop_one_getLast : ∀ l : List String, l.drop 1 ≠ [] →
    (l.drop 1).getLast? = l.getLast? := by
  intro l h
  cases l with
  | nil => simp at h
  | cons a t =>
    cases t with
    | nil => simp at h
    | cons b t2 =>
      show (b :: t2).getLast? = (a :: b :: t2).getLast?
      rw [List.getLast?_cons_cons]

/-- Rebuilding a nonempty list from `dropLast` and the defaulted `getLast?`. -/
theorem dropLast_append_getLastD : ∀ l : List String, l ≠ [] →
    l.dropLast ++ [l.getLast?.getD ""] = l := by
  intro l h
  rw [List.getLast?_eq_getLast l h, Option.getD_some]
  exact List.dropLast_append_getLast h

/-- The walk segments of one `rescan` iteration split as directory path plus the
    entry's file name. -/
theorem stepSegs_decomp (e : DirEntry) (h : stepSegs e ≠ []) :
    (stepSegs e).dropLast ++ [entryFileName e] = stepSegs e := by
  have h1 : (stepSegs e).getLast? = (entrySegments e).getLast? :=
    drop_one_getLast _ h
  have h2 : entryFileName e = (stepSegs e).getLast?.getD "" := by
    unfold entryFileName
    rw [h1]
  rw [h2]
  exact dropLast_append_getLastD _ h

/-- No walk segment of an entry contains a slash. -/
theorem stepSegs_no_slash (e : DirEntry) : ∀ s ∈ stepSegs e, ('/' : Char) ∉ s.toList := by
  intro s hs
  exact not_slash_mem_splitSlash _ s (List.mem_of_mem_drop hs)

/-- Joining and re-splitting the walk segments is the identity. -/
theorem stepSegs_roundtrip (e : DirEntry) (h : stepSegs e ≠ []) :
    splitSlash (joinSlash (stepSegs e)) = stepSegs e :=
  splitSlash_joinSlash _ h (stepSegs_no_slash e)

-- findMatch insertion lemmas -------------------------------------------------------

/-- The scan over an empty tree is empty. -/
theorem findMatchAt_empty : ∀ (p : List String) (fn : String),
    findMatchAt (FileTreeNode.Directory []) p fn = none := by
  intro p
  induction p with
  | nil => intro fn; rfl
  | cons s p' ih =>
    intro fn
    simpa [findMatchAt, effMapAt, alookup] using ih fn

/-- Inserting a file whose name does not match the scanned name (over a key whose
    old binding was a directory or absent) leaves the scan unchanged. -/
theorem findMatch_insertA_file_ne :
    ∀ (m : List (String × FileTreeNode)) (k fn' : String) (A : Asset),
    rustFileName A.path ≠ some fn' →
    (alookup m k = none ∨ ∃ mm, alookup m k = some (FileTreeNode.Directory mm)) →
    findMatch (insertA m k (FileTreeNode.File A)) fn' = findMatch m fn' := by
  intro m
  induction m with
  | nil =>
    intro k fn' A hA _
    simp [insertA, findMatch, hA]
  | cons kv rest ih =>
    obtain ⟨k2, v2⟩ := kv
    intro k fn' A hA hv
    by_cases h2 : k2 = k
    · subst h2
      have hl : alookup ((k2, v2) :: rest) k2 = some v2 := by simp [alookup]
      rcases hv with hv | ⟨mm, hv⟩
      · rw [hl] at hv; exact absurd hv (by simp)
      · rw [hl] at hv
        simp only [Option.some.injEq] at hv
        subst hv
        simp [insertA, findMatch, hA]
    · have hv2 : alookup rest k = none ∨
          ∃ mm, alookup rest k = some (FileTreeNode.Directory mm) := by
        have hlrest : alookup ((k2, v2) :: rest) k = alookup rest k := by
          simp [alookup, h2]
        rw [← hlrest]; exact hv
      simp only [insertA, if_neg h2]
      cases v2 with
      | Directory mm2 =>
        simp only [findMatch]
        exact ih k fn' A hA hv2
      | File a2 =>
        simp only [findMatch]
        by_cases hname : rustFileName a2.path = some fn'
        · simp [hname]
        · simp only [if_neg hname]
          exact ih k fn' A hA hv2

/-- Inserting a file with no earlier match and a matching name makes the scan
    find exactly it. -/
theorem findMatch_insertA_file_self :
    ∀ (m : List (String × FileTreeNode)) (k : String) (A : Asset),
    findMatch m k = none → rustFileName A.path = some k →
    (alookup m k = none ∨ ∃ mm, alookup m k = some (FileTreeNode.Directory mm)) →
    findMatch (insertA m k (FileTreeNode.File A)) k = some A := by
  intro m
  induction m with
  | nil =>
    intro k A _ hA _
    simp [insertA, findMatch, hA]
  | cons kv rest ih =>
    obtain ⟨k2, v2⟩ := kv
    intro k A hnone hA hv
    by_cases h2 : k2 = k
    · subst h2
      have hl : alookup ((k2, v2) :: rest) k2 = some v2 := by simp [alookup]
      rcases hv with hv | ⟨mm, hv⟩
      · rw [hl] at hv; exact absurd hv (by simp)
      · rw [hl] at hv
        simp only [Option.some.injEq] at hv
        subst hv
        simp [insertA, findMatch, hA]
    · have hv2 : alookup rest k = none ∨
          ∃ mm, alookup rest k = some (FileTreeNode.Directory mm) := by
        have hlrest : alookup ((k2, v2) :: rest) k = alookup rest k := by
          simp [alookup, h2]
        rw [← hlrest]; exact hv
      simp only [insertA, if_neg h2]
      cases v2 with
      | Directory mm2 =>
        simp only [findMatch] at hnone ⊢
        exact ih k A hnone hA hv2
      | File a2 =>
        simp only [findMatch] at hnone ⊢
        by_cases hname : rustFileName a2.path = some k
        · rw [if_pos hname] at hnone
          exact absurd hnone (by simp)
        · rw [if_neg hname] at hnone ⊢
          exact ih k A hnone hA hv2

/-- Under `KeysOK`, a failed scan means the key is absent or bound to a
    directory. -/
theorem findMatch_none_alookup (m : List (String × FileTreeNode))
    (hok : KeysOK (FileTreeNode.Directory m)) (fn : String) :
    findMatch m fn = none →
    alookup m fn = none ∨ ∃ mm, alookup m fn = some (FileTreeNode.Directory mm) := by
  rw [findMatch_eq_alookup m hok fn]
  cases hl : alookup m fn with
  | none => intro _; exact Or.inl rfl
  | some n =>
    cases n with
    | Directory mm => intro _; exact Or.inr ⟨mm, rfl⟩
    | File a => intro h; exact absurd h (by simp)

-- Reconcile shapes -----------------------------------------------------------------

/-- When reconciliation reports an asset, it inserted exactly that ingested asset
    under the file-name key and counted one ingestion. -/
theorem reconcile_some_shape (m : List (String × FileTreeNode)) (e : DirEntry)
    (filename : String) (A : Asset) :
    (reconcile m e filename).2.1 = some A →
    (reconcile m e filename).1 = insertA m filename (FileTreeNode.File A) ∧
      process_file e = some A ∧ (reconcile m e filename).2.2 = 1 := by
  unfold reconcile
  split
  · cases hp : process_file e with
    | none => intro h; simp at h
    | some B =>
      intro h
      simp only [Option.some.injEq] at h
      subst h
      exact ⟨rfl, rfl, rfl⟩
  · intro h; simp at h

/-- When reconciliation reports no asset, the map is unchanged and nothing was
    counted. -/
theorem reconcile_none_shape (m : List (String × FileTreeNode)) (e : DirEntry)
    (filename : String) :
    (reconcile m e filename).2.1 = none →
    (reconcile m e filename).1 = m ∧ (reconcile m e filename).2.2 = 0 := by
  unfold reconcile
  split
  · cases hp : process_file e with
    | none => intro _; exact ⟨rfl, rfl⟩
    | some B => intro h; simp at h
  · intro _; exact ⟨rfl, rfl⟩

-- rescanStep inversion -------------------------------------------------------------

/-- Full inversion of one successful `rescan` iteration: the effective map at the
    directory path exists, the tree is the corresponding update, the auxiliary
    registry fields change exactly as the reconciliation outcome dictates. -/
theorem rescanStep_inv : ∀ (reg : AssetRegistry) (e : DirEntry) (reg2 : AssetRegistry)
    (recOpt : Option (Nat × String)) (cnt : Nat),
    rescanStep reg e = some (reg2, recOpt, cnt) →
    ∃ m0 tree2,
      stepSegs e ≠ [] ∧
      effMapAt reg.file_tree (stepSegs e).dropLast = some m0 ∧
      updateAtDir reg.file_tree (stepSegs e).dropLast
          (fun m => reconcile m e (entryFileName e)) =
        some (tree2, (reconcile m0 e (entryFileName e)).2) ∧
      reg2.file_tree = tree2 ∧
      reg2.base_path_relative = reg.base_path_relative ∧
      reg2.base_path_absolute = reg.base_path_absolute ∧
      reg2.cached_texture_arcs = reg.cached_texture_arcs ∧
      cnt = (reconcile m0 e (entryFileName e)).2.2 ∧
      ((reconcile m0 e (entryFileName e)).2.1 = none → recOpt = none ∧
        reg2.uid_to_path = reg.uid_to_path) ∧
      (∀ A, (reconcile m0 e (entryFileName e)).2.1 = some A →
        recOpt = some (A.uid, joinSlash (stepSegs e)) ∧
        reg2.uid_to_path = insertA reg.uid_to_path A.uid (joinSlash (stepSegs e))) := by
  intro reg e reg2 recOpt cnt h
  unfold rescanStep at h
  cases hlast : (stepSegs e).getLast? with
  | none => rw [hlast] at h; simp at h
  | some fnl =>
    rw [hlast] at h
    have hne : stepSegs e ≠ [] := by
      intro he
      rw [he] at hlast
      simp at hlast
    cases hupd : updateAtDir reg.file_tree (stepSegs e).dropLast
        (fun m => reconcile m e (entryFileName e)) with
    | none => rw [hupd] at h; simp at h
    | some pr =>
      rw [hupd] at h
      obtain ⟨tree2, ares, cres⟩ := pr
      obtain ⟨m0, hm0, hout, -, -⟩ :=
        updateAtDir_effMapAt _ _ _ (fun m => reconcile m e (entryFileName e)) _ hupd
      have hout2 : (ares, cres) = (reconcile m0 e (entryFileName e)).2 := hout
      refine ⟨m0, tree2, hne, hm0, ?_⟩
      rw [← hout2]
      cases ares with
      | some A =>
        simp only [Option.some.injEq, Prod.mk.injEq] at h
        obtain ⟨hreg2, hrec, hcnt⟩ := h
        subst hreg2
        refine ⟨rfl, rfl, rfl, rfl, rfl, hcnt.symm, ?_, ?_⟩
        · intro hcontra
          exact absurd hcontra (by simp)
        · intro A2 hA2
          simp only [Option.some.injEq] at hA2
          subst hA2
          exact ⟨hrec.symm, rfl⟩
      | none =>
        simp only [Option.some.injEq, Prod.mk.injEq] at h
        obtain ⟨hreg2, hrec, hcnt⟩ := h
        subst hreg2
        refine ⟨rfl, rfl, rfl, rfl, rfl, hcnt.symm, ?_, ?_⟩
        · intro _
          exact ⟨hrec.symm, rfl⟩
        · intro A2 hA2
          exact absurd hA2 (by simp)

-- C1 -------------------------------------------------------------------------------

/-- Characterization of the `get_assets_in_directory` walk: the final segment is
    never resolved; the walk consumes all segments but the last and returns the
    `File` children of the node it stands on. -/
theorem gaid_characterization : ∀ (segs : List String) (t : FileTreeNode), segs ≠ [] →
    gaid_go t segs =
      match subtreeAt t segs.dropLast with
      | some (FileTreeNode.Directory m) => some (filesOf m)
      | _ => none := by
  intro segs
  induction segs with
  | nil => intro t h; exact absurd rfl h
  | cons s rest ih =>
    intro t _
    cases rest with
    | nil =>
      cases t with
      | File a => rfl
      | Directory m => rfl
    | cons s2 rest2 =>
      cases t with
      | File a => rfl
      | Directory m =>
        have hdl : (s :: s2 :: rest2).dropLast = s :: (s2 :: rest2).dropLast := rfl
        rw [hdl]
        show (match alookup m s with
              | some node => gaid_go node (s2 :: rest2)
              | none => none) =
          match subtreeAt (FileTreeNode.Directory m) (s :: (s2 :: rest2).dropLast) with
          | some (FileTreeNode.Directory mm) => some (filesOf mm)
          | _ => none
        cases hl : alookup m s with
        | none => simp [subtreeAt, hl]
        | some n =>
          have hred : (match some n with
              | some node => gaid_go node (s2 :: rest2)
              | none => none) = gaid_go n (s2 :: rest2) := rfl
          rw [hred, ih n (by simp)]
          simp [subtreeAt, hl]

/-- C1, corrected.  `get_assets_in_directory` splits the backslash-normalized
    path on `/` and walks from the root, but never resolves the final segment:
    it returns the `File` children of the node reached after consuming all
    segments but the last (not-found only when a consumed segment hits a `File`
    or misses).  In particular a path that resolves to a `File` leaf returns the
    `File` children of that file's parent directory, not "not found". -/
theorem C1_amended : ∀ (reg : AssetRegistry) (path : String),
    get_assets_in_directory reg path =
      match subtreeAt reg.file_tree (splitSlash (normSlashes path)).dropLast with
      | some (FileTreeNode.Directory m) => some (filesOf m)
      | _ => none := by
  intro reg path
  unfold get_assets_in_directory
  exact gaid_characterization _ _ (splitSlash_ne_nil _)

/-- C1 counterexample: in a registry whose tree holds the file
    `textures/a.png`, that very path resolves to a `File` leaf, yet
    `get_assets_in_directory` returns the sibling list `[assetA]` instead of the
    "not found" the claim requires. -/
theorem C1_counterexample :
    resolveFile regA.file_tree (splitSlash (normSlashes "textures/a.png")) =
      some assetA ∧
    get_assets_in_directory regA "textures/a.png" = some [assetA] := ⟨rfl, rfl⟩

-- C2 -------------------------------------------------------------------------------

/-- C2, corrected.  Walker errors are dropped by `filter_map(Result::ok)` before
    the loop body runs: an error item is skipped entirely, and whenever `rescan`
    completes it reports `Ok(())` -- no `WalkDirError` is ever returned. -/
theorem C2_amended :
    (∀ (reg : AssetRegistry) (walk : List WalkItem) (out : RescanOut),
      rescan reg walk = some out → out.result = Except.ok ()) ∧
    (∀ (reg : AssetRegistry) (msg : String) (rest : List WalkItem),
      rescan reg (WalkItem.err msg :: rest) = rescan reg rest) := by
  constructor
  · intro reg walk out h
    exact rescanGo_result walk reg 0 [] out h
  · intro reg msg rest
    rfl

/-- C2 counterexample: a rescan whose walker yields an error entry completes
    with `Ok(())` and no `WalkDirError`, contradicting the claimed propagation. -/
theorem C2_counterexample :
    rescan regFresh [WalkItem.err "permission denied"] =
      some ⟨regFresh, 0, [], Except.ok ()⟩ := rfl

/-- Witness for the amended C2 at a concrete input. -/
theorem C2_amended_witness :
    ∃ out, rescan regFresh [WalkItem.err "io error"] = some out ∧
      out.result = Except.ok () :=
  ⟨⟨regFresh, 0, [], Except.ok ()⟩, rfl,
    C2_amended.1 regFresh [WalkItem.err "io error"] ⟨regFresh, 0, [], Except.ok ()⟩ rfl⟩

-- C3 -------------------------------------------------------------------------------

/-- C3, corrected.  Dispatch is on the extension exactly as stored -- there is no
    lowercasing: an entry is handed to the texture processor precisely when its
    extension is one of the exact strings `png`, `jpg`, `tga`, `dds`; only `png`
    produces an asset; every other (or missing) extension yields no asset; and a
    file that yields no asset changes nothing during reconciliation. -/
theorem C3_amended : ∀ e : DirEntry,
    (∀ ext, extensionOf (entryFileName e) = some ext →
      ext ∈ ["png", "jpg", "tga", "dds"] →
      process_file e = process_texture e (entryFileName e) ext) ∧
    (∀ ext, extensionOf (entryFileName e) = some ext →
      ext ∉ ["png", "jpg", "tga", "dds"] → process_file e = none) ∧
    (extensionOf (entryFileName e) = none → process_file e = none) ∧
    (∀ ext, ext ≠ "png" → process_texture e (entryFileName e) ext = none) ∧
    (∀ a, process_file e = some a → extensionOf (entryFileName e) = some "png") ∧
    (∀ m filename, process_file e = none →
      (reconcile m e filename).1 = m ∧ (reconcile m e filename).2.1 = none ∧
      (reconcile m e filename).2.2 = 0) := by
  intro e
  refine ⟨?_, ?_, ?_, ?_, ?_, ?_⟩
  · intro ext hx hmem
    simp [process_file, hx, hmem]
  · intro ext hx hmem
    simp [process_file, hx, hmem]
  · intro hx
    simp [process_file, hx]
  · intro ext hx
    unfold process_texture
    rw [if_neg hx]
  · intro a h
    exact process_file_ext e a h
  · intro m filename hp
    rw [reconcile_go_none m e filename hp]
    exact ⟨rfl, rfl, rfl⟩

/-- C3 counterexample: an entry whose extension is the exact string `PNG` (which
    lowercases to the recognized `png`, and whose bytes the png processor would
    happily ingest) is not dispatched at all: `process_file` yields no asset. -/
theorem C3_counterexample :
    extensionOf (entryFileName entAUpper) = some "PNG" ∧
    "PNG".toList.map Char.toLower = "png".toList ∧
    (∃ a, process_texture entAUpper (entryFileName entAUpper) "png" = some a) ∧
    process_file entAUpper = none := by
  refine ⟨rfl, by decide, ⟨_, rfl⟩, rfl⟩

/-- Witness for the amended C3 at a concrete input. -/
theorem C3_amended_witness :
    process_file entA = process_texture entA (entryFileName entA) "png" ∧
    process_file entAUpper = none := by
  constructor
  · exact (C3_amended entA).1 "png" rfl (by simp)
  · exact (C3_amended entAUpper).2.1 "PNG" rfl (by simp)

-- C4 -------------------------------------------------------------------------------

/-- C4, confirmed.  For an RGB8 decode of a width-by-height source (buffer length
    `3*w*h`), the normalized payload carries the source bytes with a 255 alpha
    byte after every group of three, in order, and has length `w*h*4`; an RGBA8
    decode passes through unchanged; the channel masks are RED|GREEN|BLUE for
    RGB8 and all four channels for RGBA8. -/
theorem C4_thm : ∀ (e : DirEntry) (fn : String),
    (e.png.colortype = ColorType.RGB 8 →
      e.png.data.length = 3 * (e.png.width * e.png.height) →
      ∃ a td, process_texture e fn "png" = some a ∧ a.data = AssetData.Texture td ∧
        td.data.length = e.png.width * e.png.height * 4 ∧
        (∀ i j, i < e.png.width * e.png.height → j < 3 →
          td.data.get? (4 * i + j) = e.png.data.get? (3 * i + j)) ∧
        (∀ i, i < e.png.width * e.png.height → td.data.get? (4 * i + 3) = some 255) ∧
        td.settings.has_channels = rgbMask ∧ td.settings.include_channels = rgbMask) ∧
    (e.png.colortype = ColorType.RGBA 8 →
      ∃ a td, process_texture e fn "png" = some a ∧ a.data = AssetData.Texture td ∧
        td.data = e.png.data ∧
        td.settings.has_channels = ChannelMask.all ∧
        td.settings.include_channels = ChannelMask.all) := by
  intro e fn
  constructor
  · intro hct hlen
    have hpt : process_texture e fn "png" =
        some (mkTexAsset fn e.mtime e.uid (mod32 e.png.width, mod32 e.png.height)
          rgbMask (pushAlpha e.png.data)) := by
      unfold process_texture
      rw [if_pos rfl, hct]
    refine ⟨_, _, hpt, rfl, ?_, ?_, ?_, rfl, rfl⟩
    · have hl := pushAlpha_length (e.png.width * e.png.height) e.png.data hlen
      show (pushAlpha e.png.data).length = e.png.width * e.png.height * 4
      omega
    · intro i j hi hj
      exact pushAlpha_get_rgb i _ e.png.data hlen hi j hj
    · intro i hi
      exact pushAlpha_get_alpha i _ e.png.data hlen hi
  · intro hct
    have hpt : process_texture e fn "png" =
        some (mkTexAsset fn e.mtime e.uid (mod32 e.png.width, mod32 e.png.height)
          ChannelMask.all e.png.data) := by
      unfold process_texture
      rw [if_pos rfl, hct]
    exact ⟨_, _, hpt, rfl, rfl, rfl, rfl⟩

/-- Witness for C4 at a 2x1 RGB8 input and a 1x1 RGBA8 input. -/
theorem C4_witness :
    entA.png.colortype = ColorType.RGB 8 ∧
    entA.png.data.length = 3 * (entA.png.width * entA.png.height) ∧
    entB.png.colortype = ColorType.RGBA 8 ∧
    (∃ a td, process_texture entA "a.png" "png" = some a ∧
      a.data = AssetData.Texture td ∧
      td.data.length = entA.png.width * entA.png.height * 4) ∧
    (∃ a td, process_texture entB "b.png" "png" = some a ∧
      a.data = AssetData.Texture td ∧ td.data = entB.png.data) := by
  refine ⟨rfl, rfl, rfl, ?_, ?_⟩
  · obtain ⟨a, td, h1, h2, h3, -⟩ := (C4_thm entA "a.png").1 rfl rfl
    exact ⟨a, td, h1, h2, h3⟩
  · obtain ⟨a, td, h1, h2, h3, -⟩ := (C4_thm entB "b.png").2 rfl
    exact ⟨a, td, h1, h2, h3⟩

-- C7 -------------------------------------------------------------------------------

/-- An asset reachable by the `get_asset` walk satisfies any property all tree
    assets satisfy. -/
theorem ga_go_allAssets {P : Asset → Prop} : ∀ (segs : List String)
    (t : FileTreeNode) (a : Asset),
    ga_go t segs = some a → AllAssets P t → P a := by
  intro segs
  induction segs with
  | nil =>
    intro t a h
    cases t <;> simp [ga_go] at h
  | cons s rest ih =>
    intro t a h hall
    cases t with
    | File a2 => simp [ga_go] at h
    | Directory m =>
      simp only [ga_go] at h
      cases hl : alookup m s with
      | none => rw [hl] at h; simp at h
      | some n =>
        rw [hl] at h
        have hn : AllAssets P n := by
          cases hall with
          | dir m hch => exact hch s n (alookup_mem m s n hl)
        cases n with
        | File a2 =>
          cases rest with
          | nil =>
            simp only [Option.some.injEq] at h
            cases hn with
            | file _ hp => exact h ▸ hp
          | cons r rest2 => simp [ga_go] at h
        | Directory mm =>
          cases rest with
          | nil => simp [ga_go] at h
          | cons r rest2 => exact ih _ a h hn

/-- C7, confirmed.  Every texture asset the ingestion pipeline produces carries
    the RGBA8-sRGB format tag, and when every asset in the tree was produced by
    the pipeline, the fatal (unimplemented format) branch of `get_texture` is
    unreachable. -/
theorem C7_thm :
    (∀ (e : DirEntry) (fn ext : String) (a : Asset) (td : TextureAssetData),
      process_texture e fn ext = some a → a.data = AssetData.Texture td →
      td.settings.format = Format.R8G8B8A8Srgb) ∧
    (∀ (up : List Nat → Nat × Nat → GpuImage) (reg : AssetRegistry) (p : String),
      AllAssets pipelineProduced reg.file_tree →
      (get_texture up reg p).1 ≠ GTexResult.fatal) := by
  constructor
  · exact process_texture_format
  · intro up reg p hall hcontra
    unfold get_texture at hcontra
    split at hcontra
    · simp at hcontra
    · rename_i a heq
      split at hcontra
      rename_i td heqd
      split at hcontra
      · simp at hcontra
      · split at hcontra
        · simp at hcontra
        · rename_i n heqf
          have hpp : pipelineProduced a := by
            have hga2 := heq
            unfold get_asset at hga2
            exact ga_go_allAssets _ _ _ hga2 hall
          obtain ⟨e, fn2, ext2, hpt⟩ := hpp
          have hfmt : td.settings.format = Format.R8G8B8A8Srgb :=
            process_texture_format e fn2 ext2 a td hpt heqd
          rw [hfmt] at heqf
          exact absurd heqf (by simp)

/-- Witness for C7: a one-file registry whose only asset was produced by the
    pipeline, on which `get_texture` does not hit the fatal branch. -/
theorem C7_witness :
    AllAssets pipelineProduced regA.file_tree ∧
    (get_texture upFun regA "textures/a.png").1 ≠ GTexResult.fatal := by
  have hall : AllAssets pipelineProduced regA.file_tree := by
    show AllAssets pipelineProduced (FileTreeNode.Directory
      [("textures", FileTreeNode.Directory [("a.png", FileTreeNode.File assetA)])])
    refine AllAssets.dir _ ?_
    intro k n hkn
    simp only [List.mem_singleton, Prod.mk.injEq] at hkn
    obtain ⟨-, rfl⟩ := hkn
    refine AllAssets.dir _ ?_
    intro k2 n2 hkn2
    simp only [List.mem_singleton, Prod.mk.injEq] at hkn2
    obtain ⟨-, rfl⟩ := hkn2
    exact AllAssets.file _ ⟨entA, "a.png", "png", rfl⟩
  exact ⟨hall, C7_thm.2 upFun regA "textures/a.png" hall⟩

-- C10 ------------------------------------------------------------------------------

/-- C10, confirmed.  When the caller-supplied path is already a cache key and
    resolves to an asset, `get_texture` returns a clone of the cached handle,
    leaves the registry exactly as it was, and does not invoke the uploader. -/
theorem C10_thm : ∀ (up : List Nat → Nat × Nat → GpuImage) (reg : AssetRegistry)
    (p : String) (a : Asset) (t : Texture),
    get_asset reg p = some a →
    alookup reg.cached_texture_arcs p = some t →
    get_texture up reg p = (GTexResult.found t, reg, 0) := by
  intro up reg p a t hga hc
  unfold get_texture
  rw [hga]
  cases hd : a.data with
  | Texture td => rw [hc]

/-- Witness for C10 at a concrete registry with a populated cache. -/
theorem C10_witness :
    get_asset regAC "textures/a.png" = some assetA ∧
    alookup regAC.cached_texture_arcs "textures/a.png" =
      some (Texture.RGBA8_Srgb ⟨5⟩) ∧
    get_texture upFun regAC "textures/a.png" =
      (GTexResult.found (Texture.RGBA8_Srgb ⟨5⟩), regAC, 0) :=
  ⟨rfl, rfl, C10_thm upFun regAC "textures/a.png" assetA (Texture.RGBA8_Srgb ⟨5⟩) rfl rfl⟩

-- C6 -------------------------------------------------------------------------------

/-- Evaluation of `get_texture` once the asset lookup is known: consult the
    cache, then dispatch on the stored format. -/
theorem get_texture_eq (up : List Nat → Nat × Nat → GpuImage) (reg : AssetRegistry)
    (p : String) (a : Asset) (td : TextureAssetData)
    (hga : get_asset reg p = some a) (hdata : a.data = AssetData.Texture td) :
    get_texture up reg p =
      match alookup reg.cached_texture_arcs p with
      | some t => (GTexResult.found t, reg, 0)
      | none =>
        match td.settings.format with
        | Format.R8G8B8A8Srgb =>
          (GTexResult.found (Texture.RGBA8_Srgb (up td.data td.settings.dimensions)),
           cacheInsert reg p (Texture.RGBA8_Srgb (up td.data td.settings.dimensions)), 1)
        | Format.otherFormat _ => (GTexResult.fatal, reg, 0) := by
  obtain ⟨ap, at2, au, ath, adata⟩ := a
  have hdata2 : adata = AssetData.Texture td := hdata
  subst hdata2
  unfold get_texture
  rw [hga]

/-- C6, confirmed.  For a path naming an asset whose payload decoded successfully
    (it is in the tree with the pipeline's RGBA8-sRGB format), two `get_texture`
    calls return equal handles and invoke the uploader at most once for that
    exact path string: the first call caches the handle under the caller-supplied
    path, the second returns a clone of the cached handle without uploading. -/
theorem C6_thm : ∀ (up : List Nat → Nat × Nat → GpuImage) (reg : AssetRegistry)
    (p : String) (a : Asset) (td : TextureAssetData),
    get_asset reg p = some a →
    a.data = AssetData.Texture td →
    td.settings.format = Format.R8G8B8A8Srgb →
    ∃ t : Texture,
      (get_texture up reg p).1 = GTexResult.found t ∧
      alookup ((get_texture up reg p).2.1).cached_texture_arcs p = some t ∧
      (get_texture up ((get_texture up reg p).2.1) p).1 = GTexResult.found t ∧
      (get_texture up ((get_texture up reg p).2.1) p).2.2 = 0 ∧
      (get_texture up reg p).2.2 + (get_texture up ((get_texture up reg p).2.1) p).2.2 ≤ 1 := by
  intro up reg p a td hga hdata hfmt
  cases hc : alookup reg.cached_texture_arcs p with
  | some t =>
    have h1 : get_texture up reg p = (GTexResult.found t, reg, 0) := by
      rw [get_texture_eq up reg p a td hga hdata, hc]
    have h2 : (get_texture up reg p).2.1 = reg := by rw [h1]
    refine ⟨t, by rw [h1], by rw [h2]; exact hc, by rw [h2, h1], by rw [h2, h1],
      by rw [h2, h1]; simp⟩
  | none =>
    have h1 : get_texture up reg p =
        (GTexResult.found (Texture.RGBA8_Srgb (up td.data td.settings.dimensions)),
         cacheInsert reg p (Texture.RGBA8_Srgb (up td.data td.settings.dimensions)), 1) := by
      rw [get_texture_eq up reg p a td hga hdata, hc, hfmt]
    have h2 : (get_texture up reg p).2.1 =
        cacheInsert reg p (Texture.RGBA8_Srgb (up td.data td.settings.dimensions)) := by
      rw [h1]
    have hga2 : get_asset
        (cacheInsert reg p (Texture.RGBA8_Srgb (up td.data td.settings.dimensions))) p =
        some a := hga
    have hcl : alookup
        (cacheInsert reg p (Texture.RGBA8_Srgb (up td.data td.settings.dimensions))).cached_texture_arcs
        p = some (Texture.RGBA8_Srgb (up td.data td.settings.dimensions)) :=
      alookup_insertA_self _ _ _
    have h3 : get_texture up
        (cacheInsert reg p (Texture.RGBA8_Srgb (up td.data td.settings.dimensions))) p =
        (GTexResult.found (Texture.RGBA8_Srgb (up td.data td.settings.dimensions)),
         cacheInsert reg p (Texture.RGBA8_Srgb (up td.data td.settings.dimensions)), 0) := by
      rw [get_texture_eq up _ p a td hga2 hdata, hcl]
    refine ⟨Texture.RGBA8_Srgb (up td.data td.settings.dimensions),
      by rw [h1], by rw [h2]; exact hcl, by rw [h2, h3], by rw [h2, h3],
      by rw [h2, h3, h1]; simp⟩

/-- Witness for C6 at a concrete one-file registry. -/
theorem C6_witness : ∃ t : Texture,
    (get_texture upFun regA "textures/a.png").1 = GTexResult.found t ∧
    (get_texture upFun ((get_texture upFun regA "textures/a.png").2.1)
      "textures/a.png").1 = GTexResult.found t ∧
    (get_texture upFun regA "textures/a.png").2.2 +
      (get_texture upFun ((get_texture upFun regA "textures/a.png").2.1)
        "textures/a.png").2.2 ≤ 1 := by
  obtain ⟨t, h1, h2, h3, h4, h5⟩ :=
    C6_thm upFun regA "textures/a.png" assetA _ rfl rfl rfl
  exact ⟨t, h1, h3, h5⟩

-- C9 -------------------------------------------------------------------------------

/-- The reconciliation map function preserves tree well-formedness when the
    entry's file name is a valid bare name. -/
theorem reconcile_keysOK (e : DirEntry) :
    rustFileName (entryFileName e) = some (entryFileName e) →
    ∀ m, KeysOK (FileTreeNode.Directory m) →
    KeysOK (FileTreeNode.Directory (reconcile m e (entryFileName e)).1) := by
  intro hv m hok
  rcases reconcile_cases m e (entryFileName e) with hcase | ⟨A, hA, hcase⟩
  · rw [hcase]; exact hok
  · rw [hcase]
    obtain ⟨hpathA, -, -⟩ := process_file_fields e A hA
    obtain ⟨hch, hpath, hnodup⟩ := KeysOK_dir_inv hok
    refine KeysOK.dir _ ?_ ?_ ?_
    · intro k n hm
      rcases mem_insertA _ _ _ k n hm with ⟨-, hn⟩ | hm2
      · subst hn
        refine KeysOK.file A ?_
        rw [hpathA]
        exact hv
      · exact hch k n hm2
    · intro k a2 hm
      rcases mem_insertA _ _ _ k (FileTreeNode.File a2) hm with ⟨hk, hn⟩ | hm2
      · injection hn with hn2
        subst hn2
        rw [hpathA, hk]
      · exact hpath k a2 hm2
    · exact insertA_nodup_keys _ _ _ hnodup

/-- One successful rescan iteration preserves tree well-formedness. -/
theorem rescanStep_keysOK (reg : AssetRegistry) (e : DirEntry) (reg2 : AssetRegistry)
    (recOpt : Option (Nat × String)) (cnt : Nat) :
    rescanStep reg e = some (reg2, recOpt, cnt) →
    rustFileName (entryFileName e) = some (entryFileName e) →
    KeysOK reg.file_tree → KeysOK reg2.file_tree := by
  intro h hv hok
  obtain ⟨m0, tree2, -, -, hupd, htree, -, -, -, -, -, -⟩ :=
    rescanStep_inv reg e reg2 recOpt cnt h
  rw [htree]
  exact KeysOK_updateAtDir _ _ _ _ _ hupd (reconcile_keysOK e hv) hok

/-- The rescan loop preserves tree well-formedness. -/
theorem rescanGo_keysOK : ∀ (walk : List WalkItem) (reg : AssetRegistry) (ing : Nat)
    (recd : List (Nat × String)) (out : RescanOut),
    rescanGo reg walk ing recd = some out →
    (∀ e, WalkItem.ok e ∈ walk → e.isDir = false →
      rustFileName (entryFileName e) = some (entryFileName e)) →
    KeysOK reg.file_tree → KeysOK out.reg.file_tree := by
  intro walk
  induction walk with
  | nil =>
    intro reg ing recd out h hv hok
    simp only [rescanGo, Option.some.injEq] at h
    rw [← h]
    exact hok
  | cons item rest ih =>
    intro reg ing recd out h hv hok
    cases item with
    | err msg =>
      exact ih _ _ _ _ h (fun e2 he hd => hv e2 (List.mem_cons_of_mem _ he) hd) hok
    | ok e =>
      simp only [rescanGo] at h
      split at h
      · exact ih _ _ _ _ h (fun e2 he hd => hv e2 (List.mem_cons_of_mem _ he) hd) hok
      · rename_i hdir
        have hdf : e.isDir = false := by
          revert hdir
          cases e.isDir <;> simp
        cases hstep : rescanStep reg e with
        | none => rw [hstep] at h; simp at h
        | some pr =>
          rw [hstep] at h
          obtain ⟨reg2, recOpt, cnt⟩ := pr
          have hve := hv e (List.mem_cons_self _ _) hdf
          exact ih _ _ _ _ h (fun e2 he hd => hv e2 (List.mem_cons_of_mem _ he) hd)
            (rescanStep_keysOK reg e reg2 recOpt cnt hstep hve hok)

/-- C9, confirmed.  Every rescan keeps the invariant that each `File` node's map
    key equals its asset's `path` field, which is the bare valid terminal file
    name of the source entry (the pipeline stores the entry's file name, with no
    directory components); a fresh registry starts with it. -/
theorem C9_thm :
    (∀ (e : DirEntry) (a : Asset), process_file e = some a → a.path = entryFileName e) ∧
    (∀ (b1 b2 : String) (r : AssetRegistry),
      AssetRegistry.new b1 b2 true = Except.ok r → KeysOK r.file_tree) ∧
    (∀ (walk : List WalkItem) (reg : AssetRegistry) (out : RescanOut),
      (∀ e, WalkItem.ok e ∈ walk → e.isDir = false →
        rustFileName (entryFileName e) = some (entryFileName e)) →
      KeysOK reg.file_tree →
      rescan reg walk = some out → KeysOK out.reg.file_tree) := by
  refine ⟨?_, ?_, ?_⟩
  · intro e a h
    exact (process_file_fields e a h).1
  · intro b1 b2 r h
    simp only [AssetRegistry.new, if_true] at h
    have h2 : r.file_tree = FileTreeNode.Directory [] := by
      cases h
      rfl
    rw [h2]
    exact KeysOK_empty
  · intro walk reg out hv hok h
    exact rescanGo_keysOK walk reg 0 [] out h hv hok

/-- Witness for C9 on a concrete one-entry rescan from a fresh registry. -/
theorem C9_witness :
    rescan regFresh [WalkItem.ok entA] = some outA ∧ KeysOK outA.reg.file_tree := by
  have hv : ∀ e, WalkItem.ok e ∈ [WalkItem.ok entA] → e.isDir = false →
      rustFileName (entryFileName e) = some (entryFileName e) := by
    intro e he _
    simp only [List.mem_singleton, WalkItem.ok.injEq] at he
    subst he
    rfl
  exact ⟨rfl, C9_thm.2.2 [WalkItem.ok entA] regFresh outA hv KeysOK_empty rfl⟩

-- C8 -------------------------------------------------------------------------------

/-- `okFilePaths` over an error item. -/
theorem okFilePaths_err (msg : String) (rest : List WalkItem) :
    okFilePaths (WalkItem.err msg :: rest) = okFilePaths rest := rfl

/-- `okFilePaths` over a directory item. -/
theorem okFilePaths_dir (e : DirEntry) (rest : List WalkItem) (h : e.isDir = true) :
    okFilePaths (WalkItem.ok e :: rest) = okFilePaths rest := by
  simp [okFilePaths, h]

/-- `okFilePaths` over a file item. -/
theorem okFilePaths_file (e : DirEntry) (rest : List WalkItem) (h : e.isDir = false) :
    okFilePaths (WalkItem.ok e :: rest) = stepSegs e :: okFilePaths rest := by
  simp [okFilePaths, h]

/-- When reconciliation reports an asset, the rescan step recorded exactly that
    asset's uid with the slash-joined path, and the uid map gained that binding. -/
theorem rescanStep_record (reg : AssetRegistry) (e : DirEntry) (reg2 : AssetRegistry)
    (recOpt : Option (Nat × String)) (cnt : Nat) (u0 : Nat) (q0 : String) :
    rescanStep reg e = some (reg2, recOpt, cnt) →
    recOpt = some (u0, q0) →
    ∃ m0 tree2 A,
      stepSegs e ≠ [] ∧
      effMapAt reg.file_tree (stepSegs e).dropLast = some m0 ∧
      updateAtDir reg.file_tree (stepSegs e).dropLast
          (fun m => reconcile m e (entryFileName e)) =
        some (tree2, (reconcile m0 e (entryFileName e)).2) ∧
      reg2.file_tree = tree2 ∧
      (reconcile m0 e (entryFileName e)).2.1 = some A ∧
      u0 = A.uid ∧ q0 = joinSlash (stepSegs e) ∧
      reg2.uid_to_path = insertA reg.uid_to_path A.uid (joinSlash (stepSegs e)) := by
  intro h hrec
  obtain ⟨m0, tree2, hne, hm0, hupd, htree, -, -, -, -, hnone, hsome⟩ :=
    rescanStep_inv reg e reg2 recOpt cnt h
  cases hrc : (reconcile m0 e (entryFileName e)).2.1 with
  | none =>
    obtain ⟨hro, -⟩ := hnone hrc
    rw [hro] at hrec
    exact absurd hrec (by simp)
  | some A =>
    obtain ⟨hro, hmap⟩ := hsome A hrc
    rw [hro] at hrec
    simp only [Option.some.injEq, Prod.mk.injEq] at hrec
    exact ⟨m0, tree2, A, hne, hm0, hupd, htree, hrc, hrec.1.symm, hrec.2.symm, hmap⟩

/-- Fold invariant for C8: every recorded uid has a surviving resolvable path,
    and the uid map points every recorded uid at some recorded path. -/
theorem rescanGo_c8 : ∀ (walk : List WalkItem) (reg : AssetRegistry) (ing : Nat)
    (recd : List (Nat × String)) (out : RescanOut),
    rescanGo reg walk ing recd = some out →
    List.Pairwise NeitherPre (okFilePaths walk) →
    (∀ u q, (u, q) ∈ recd →
      ∃ segs a, q = joinSlash segs ∧ splitSlash q = segs ∧
        (∀ pw ∈ okFilePaths walk, preOf pw segs = false) ∧
        resolveFile reg.file_tree segs = some a ∧ a.uid = u) →
    (∀ u, (∃ q, (u, q) ∈ recd) →
      ∃ q', alookup reg.uid_to_path u = some q' ∧ (u, q') ∈ recd) →
    ∀ u q, (u, q) ∈ out.recorded →
      ∃ q' a, alookup out.reg.uid_to_path u = some q' ∧
        resolveFile out.reg.file_tree (splitSlash q') = some a ∧ a.uid = u := by
  intro walk
  induction walk with
  | nil =>
    intro reg ing recd out h hpw inv1 inv2 u q hm
    simp only [rescanGo, Option.some.injEq] at h
    rw [← h] at hm ⊢
    obtain ⟨q', hlook, hq'⟩ := inv2 u ⟨q, hm⟩
    obtain ⟨segs, a, -, hsplit, -, hres, huid⟩ := inv1 u q' hq'
    exact ⟨q', a, hlook, by rw [hsplit]; exact hres, huid⟩
  | cons item rest ih =>
    intro reg ing recd out h hpw inv1 inv2 u q hm
    cases item with
    | err msg =>
      rw [okFilePaths_err] at hpw
      refine ih reg ing recd out h hpw ?_ inv2 u q hm
      intro u2 q2 hq2
      obtain ⟨segs, a, h1, h2, h3, h4, h5⟩ := inv1 u2 q2 hq2
      exact ⟨segs, a, h1, h2, fun pw hpw2 => h3 pw (by rw [okFilePaths_err]; exact hpw2),
        h4, h5⟩
    | ok e =>
      simp only [rescanGo] at h
      split at h
      · rename_i hdir
        rw [okFilePaths_dir e rest hdir] at hpw
        refine ih reg ing recd out h hpw ?_ inv2 u q hm
        intro u2 q2 hq2
        obtain ⟨segs, a, h1, h2, h3, h4, h5⟩ := inv1 u2 q2 hq2
        exact ⟨segs, a, h1, h2,
          fun pw hpw2 => h3 pw (by rw [okFilePaths_dir e rest hdir]; exact hpw2), h4, h5⟩
      · rename_i hdir
        have hdf : e.isDir = false := by
          revert hdir
          cases e.isDir <;> simp
        cases hstep : rescanStep reg e with
        | none => rw [hstep] at h; simp at h
        | some pr =>
          rw [hstep] at h
          obtain ⟨reg2, recOpt, cnt⟩ := pr
          rw [okFilePaths_file e rest hdf] at hpw
          rw [List.pairwise_cons] at hpw
          obtain ⟨hhead, htail⟩ := hpw
          obtain ⟨m0, tree2, hne, hm0, hupd, htree, -, -, -, -, hnone, hsome⟩ :=
            rescanStep_inv reg e reg2 recOpt cnt hstep
          have hdecomp := stepSegs_decomp e hne
          have hframe : ∀ (m : List (String × FileTreeNode)) (k' : String),
              k' ≠ entryFileName e →
              alookup ((fun m => reconcile m e (entryFileName e)) m).1 k' = alookup m k' :=
            fun m k' hk => reconcile_frame m e (entryFileName e) k' hk
          -- old records survive the step
          have inv1' : ∀ u2 q2, (u2, q2) ∈ recd →
              ∃ segs a, q2 = joinSlash segs ∧ splitSlash q2 = segs ∧
                (∀ pw ∈ okFilePaths rest, preOf pw segs = false) ∧
                resolveFile reg2.file_tree segs = some a ∧ a.uid = u2 := by
            intro u2 q2 hq2
            obtain ⟨segs, a, h1, h2, h3, h4, h5⟩ := inv1 u2 q2 hq2
            have hmemhead : stepSegs e ∈ okFilePaths (WalkItem.ok e :: rest) := by
              rw [okFilePaths_file e rest hdf]
              exact List.mem_cons_self _ _
            have hpre : preOf ((stepSegs e).dropLast ++ [entryFileName e]) segs = false := by
              rw [hdecomp]
              exact h3 (stepSegs e) hmemhead
            refine ⟨segs, a, h1, h2, ?_, ?_, h5⟩
            · intro pw hpw2
              have hmem2 : pw ∈ okFilePaths (WalkItem.ok e :: rest) := by
                rw [okFilePaths_file e rest hdf]
                exact List.mem_cons_of_mem _ hpw2
              exact h3 pw hmem2
            · rw [htree]
              exact resolveFile_frame _ _ _ _ _ _ hupd hframe segs a hpre h4
          cases hrc : recOpt with
          | none =>
            have hrcn : (reconcile m0 e (entryFileName e)).2.1 = none := by
              cases hrc2 : (reconcile m0 e (entryFileName e)).2.1 with
              | none => rfl
              | some A =>
                obtain ⟨hro, -⟩ := hsome A hrc2
                rw [hrc] at hro
                exact absurd hro (by simp)
            obtain ⟨-, hmap⟩ := hnone hrcn
            rw [hrc] at h
            refine ih reg2 (ing + cnt) (recd ++ []) out (by simpa using h) htail ?_ ?_ u q hm
            · simpa using inv1'
            · intro u2 hq2
              simp only [List.append_nil] at hq2
              obtain ⟨q', hlook, hmem⟩ := inv2 u2 hq2
              exact ⟨q', by rw [hmap]; exact hlook, by simpa using hmem⟩
          | some pair =>
            obtain ⟨u0, q0⟩ := pair
            obtain ⟨m0b, tree2b, A, hneb, hm0b, hupdb, htreeb, hrcb, hu0, hq0, hmapb⟩ :=
              rescanStep_record reg e reg2 recOpt cnt u0 q0 hstep hrc
            have hm0eq : m0b = m0 := by
              rw [hm0b] at hm0
              simpa using hm0
            subst hm0eq
            have htree2eq : tree2b = tree2 := by
              rw [hupdb] at hupd
              simpa using hupd
            subst htree2eq
            rw [hrc] at h
            -- the new record resolves in the updated tree
            have hresnew : resolveFile reg2.file_tree (stepSegs e) = some A := by
              rw [htree, ← hdecomp]
              refine resolveFile_after_insert _ _ _ _ _ _ A hupd ?_
              intro m hmeff
              rw [hm0] at hmeff
              simp only [Option.some.injEq] at hmeff
              subst hmeff
              exact (reconcile_some_shape _ _ _ _ hrcb).1
            have inv1'' : ∀ u2 q2, (u2, q2) ∈ recd ++ [(u0, q0)] →
                ∃ segs a, q2 = joinSlash segs ∧ splitSlash q2 = segs ∧
                  (∀ pw ∈ okFilePaths rest, preOf pw segs = false) ∧
                  resolveFile reg2.file_tree segs = some a ∧ a.uid = u2 := by
              intro u2 q2 hq2
              rcases List.mem_append.mp hq2 with hq2 | hq2
              · exact inv1' u2 q2 hq2
              · simp only [List.mem_singleton, Prod.mk.injEq] at hq2
                obtain ⟨rfl, rfl⟩ := hq2
                refine ⟨stepSegs e, A, hq0, by rw [hq0]; exact stepSegs_roundtrip e hne, ?_,
                  hresnew, hu0.symm⟩
                intro pw hpw2
                exact (hhead pw hpw2).2
            have inv2'' : ∀ u2, (∃ q2, (u2, q2) ∈ recd ++ [(u0, q0)]) →
                ∃ q', alookup reg2.uid_to_path u2 = some q' ∧
                  (u2, q') ∈ recd ++ [(u0, q0)] := by
              intro u2 hq2
              by_cases hu : u2 = u0
              · subst hu
                refine ⟨q0, ?_, List.mem_append_right _ (List.mem_singleton.mpr rfl)⟩
                rw [hmapb, ← hu0, ← hq0]
                exact alookup_insertA_self _ _ _
              · obtain ⟨q2, hq2⟩ := hq2
                rcases List.mem_append.mp hq2 with hq2m | hq2m
                · obtain ⟨q', hlook, hmem⟩ := inv2 u2 ⟨q2, hq2m⟩
                  refine ⟨q', ?_, List.mem_append_left _ hmem⟩
                  rw [hmapb, ← hu0]
                  rw [alookup_insertA_ne _ _ _ _ hu]
                  exact hlook
                · simp only [List.mem_singleton, Prod.mk.injEq] at hq2m
                  exact absurd hq2m.1 hu
            exact ih reg2 (ing + cnt) (recd ++ [(u0, q0)]) out h htail inv1'' inv2'' u q hm

/-- C8, confirmed.  After a rescan over a prefix-free walk, every uid one of its
    ingestions recorded is sent by `uid_to_path` to a path that resolves, by
    slash-split walk from the root of the file tree, to a `File` whose asset uid
    is that uid. -/
theorem C8_thm : ∀ (walk : List WalkItem) (reg : AssetRegistry) (out : RescanOut),
    List.Pairwise NeitherPre (okFilePaths walk) →
    rescan reg walk = some out →
    ∀ u q, (u, q) ∈ out.recorded →
      ∃ q' a, alookup out.reg.uid_to_path u = some q' ∧
        resolveFile out.reg.file_tree (splitSlash q') = some a ∧ a.uid = u := by
  intro walk reg out hpw h u q hm
  refine rescanGo_c8 walk reg 0 [] out h hpw ?_ ?_ u q hm
  · intro u2 q2 hq2
    simp at hq2
  · intro u2 hq2
    obtain ⟨q2, hq2⟩ := hq2
    simp at hq2

/-- Witness for C8 on a concrete one-entry rescan. -/
theorem C8_witness :
    rescan regFresh [WalkItem.ok entA] = some outA ∧
    (7, "textures/a.png") ∈ outA.recorded ∧
    ∃ q' a, alookup outA.reg.uid_to_path 7 = some q' ∧
      resolveFile outA.reg.file_tree (splitSlash q') = some a ∧ a.uid = 7 := by
  have hpw : List.Pairwise NeitherPre (okFilePaths [WalkItem.ok entA]) := by
    rw [okFilePaths_file entA [] rfl]
    refine List.Pairwise.cons ?_ List.Pairwise.nil
    intro a' ha'
    simp [okFilePaths] at ha'
  refine ⟨rfl, by decide, ?_⟩
  exact C8_thm [WalkItem.ok entA] regFresh outA hpw rfl 7 "textures/a.png"
    (by decide)

-- C5 -------------------------------------------------------------------------------

/-- The effective map at a path of a well-formed tree is well-formed. -/
theorem KeysOK_effMapAt : ∀ (d : List String) (t : FileTreeNode)
    (m : List (String × FileTreeNode)),
    effMapAt t d = some m → KeysOK t → KeysOK (FileTreeNode.Directory m) := by
  intro d
  induction d with
  | nil =>
    intro t m h hok
    cases t with
    | File a => simp [effMapAt] at h
    | Directory m2 =>
      simp only [effMapAt, Option.some.injEq] at h
      rw [← h]
      exact hok
  | cons s d' ih =>
    intro t m h hok
    cases t with
    | File a => simp [effMapAt] at h
    | Directory m2 =>
      simp only [effMapAt] at h
      cases hl : alookup m2 s with
      | none =>
        rw [hl] at h
        exact ih _ m h KeysOK_empty
      | some n =>
        rw [hl] at h
        have hn : KeysOK n := by
          obtain ⟨hch, -, -⟩ := KeysOK_dir_inv hok
          exact hch s n (alookup_mem m2 s n hl)
        exact ih _ m h hn

/-- A scan miss makes processing due. -/
theorem shouldProcess_of_none (m : List (String × FileTreeNode)) (e : DirEntry)
    (fn : String) : findMatch m fn = none → shouldProcess m e fn = true := by
  intro h
  unfold shouldProcess
  rw [h]

/-- A scan hit with a stale timestamp makes processing due. -/
theorem shouldProcess_of_stale (m : List (String × FileTreeNode)) (e : DirEntry)
    (fn : String) (a : Asset) :
    findMatch m fn = some a → a.timestamp ≠ e.mtime → shouldProcess m e fn = true := by
  intro h hts
  unfold shouldProcess
  rw [h]
  exact bne_iff_ne.mpr hts

/-- `NeitherPre` is symmetric. -/
theorem neitherPre_symm {p q : List String} (h : NeitherPre p q) : NeitherPre q p :=
  ⟨h.2, h.1⟩

/-- The two side conditions for step preservation, from prefix-freeness: the
    other entry neither shares the full path nor lies below the ingested file. -/
theorem neitherPre_side_conditions (e0 ep : DirEntry)
    (hne0 : stepSegs e0 ≠ []) (hnep : stepSegs ep ≠ [])
    (hnp : NeitherPre (stepSegs e0) (stepSegs ep)) :
    ¬ ((stepSegs ep).dropLast = (stepSegs e0).dropLast ∧
        entryFileName ep = entryFileName e0) ∧
    preOf ((stepSegs e0).dropLast ++ [entryFileName e0]) ((stepSegs ep).dropLast) =
      false := by
  constructor
  · rintro ⟨hd, hf⟩
    have heq : stepSegs ep = stepSegs e0 := by
      rw [← stepSegs_decomp ep hnep, ← stepSegs_decomp e0 hne0, hd, hf]
    exact ne_of_preOf_false hnp.1 heq.symm
  · rw [stepSegs_decomp e0 hne0]
    cases hb : preOf (stepSegs e0) ((stepSegs ep).dropLast) with
    | false => rfl
    | true =>
      have h2 : preOf ((stepSegs ep).dropLast) (stepSegs ep) = true := preOf_dropLast _
      have h3 : preOf (stepSegs e0) (stepSegs ep) = true := preOf_trans _ _ _ hb h2
      rw [hnp.1] at h3
      exact absurd h3 (by simp)

/-- The scan at any location other than the ingested file's own directory-and-name
    is unchanged by an ingesting rescan step. -/
theorem findMatchAt_after_ingest
    (tree tree2 : FileTreeNode) (e : DirEntry) (m0 : List (String × FileTreeNode))
    (A : Asset)
    (hm0 : effMapAt tree (stepSegs e).dropLast = some m0)
    (hupd : updateAtDir tree (stepSegs e).dropLast
        (fun m => reconcile m e (entryFileName e)) =
      some (tree2, (reconcile m0 e (entryFileName e)).2))
    (hshape : (reconcile m0 e (entryFileName e)).1 =
      insertA m0 (entryFileName e) (FileTreeNode.File A))
    (hAname : rustFileName A.path = some (entryFileName e))
    (hold : alookup m0 (entryFileName e) = none ∨
      ∃ mm, alookup m0 (entryFileName e) = some (FileTreeNode.Directory mm))
    (p' : List String) (fn' : String)
    (hcase : ¬ (p' = (stepSegs e).dropLast ∧ fn' = entryFileName e))
    (hnp : preOf ((stepSegs e).dropLast ++ [entryFileName e]) p' = false) :
    findMatchAt tree2 p' fn' = findMatchAt tree p' fn' := by
  by_cases hp : p' = (stepSegs e).dropLast
  · subst hp
    have hfn : fn' ≠ entryFileName e := fun he => hcase ⟨rfl, he⟩
    obtain ⟨m0', hm0', -, heff2, -⟩ := updateAtDir_effMapAt _ _ _ _ _ hupd
    have hm0eq : m0' = m0 := by
      rw [hm0'] at hm0
      simpa using hm0
    rw [hm0eq] at heff2
    unfold findMatchAt
    rw [heff2, hm0]
    simp only [Option.some_bind]
    have hshape2 : ((fun m => reconcile m e (entryFileName e)) m0).1 =
        insertA m0 (entryFileName e) (FileTreeNode.File A) := hshape
    rw [hshape2]
    refine findMatch_insertA_file_ne m0 _ fn' A ?_ hold
    rw [hAname]
    intro hcontra
    exact hfn (Option.some.inj hcontra).symm
  · exact findMatchAt_frame _ _ _ _ _ _ hupd
      (fun m k' hk => reconcile_frame m e (entryFileName e) k' hk) p' fn' hp hnp

/-- From a tree already reconciled with every remaining file entry (a matching
    timestamp for ingestible files, no asset for the rest), the rescan loop
    performs zero further ingestions. -/
theorem rescanGo_no_ingest : ∀ (walk : List WalkItem) (reg : AssetRegistry) (ing : Nat)
    (recd : List (Nat × String)) (out : RescanOut),
    rescanGo reg walk ing recd = some out →
    (∀ e, WalkItem.ok e ∈ walk → e.isDir = false →
      (∃ a, findMatchAt reg.file_tree (stepSegs e).dropLast (entryFileName e) = some a ∧
        a.timestamp = e.mtime) ∨ process_file e = none) →
    out.ingestions = ing := by
  intro walk
  induction walk with
  | nil =>
    intro reg ing recd out h hrec
    simp only [rescanGo, Option.some.injEq] at h
    rw [← h]
  | cons item rest ih =>
    intro reg ing recd out h hrec
    cases item with
    | err msg =>
      exact ih _ _ _ _ h (fun e2 he hd => hrec e2 (List.mem_cons_of_mem _ he) hd)
    | ok e =>
      simp only [rescanGo] at h
      split at h
      · exact ih _ _ _ _ h (fun e2 he hd => hrec e2 (List.mem_cons_of_mem _ he) hd)
      · rename_i hdir
        have hdf : e.isDir = false := by
          revert hdir
          cases e.isDir <;> simp
        cases hstep : rescanStep reg e with
        | none => rw [hstep] at h; simp at h
        | some pr =>
          rw [hstep] at h
          obtain ⟨reg2, recOpt, cnt⟩ := pr
          obtain ⟨m0, tree2, hne, hm0, hupd, htree, -, -, -, hcnt, -, -⟩ :=
            rescanStep_inv reg e reg2 recOpt cnt hstep
          have hrc0 : reconcile m0 e (entryFileName e) = (m0, (none, 0)) := by
            rcases hrec e (List.mem_cons_self _ _) hdf with ⟨a, hfm, hts⟩ | hpn
            · have hfm0 : findMatch m0 (entryFileName e) = some a := by
                unfold findMatchAt at hfm
                rw [hm0] at hfm
                simpa using hfm
              exact reconcile_skip m0 e (entryFileName e) a hfm0 hts
            · exact reconcile_go_none m0 e (entryFileName e) hpn
          have hcnt0 : cnt = 0 := by rw [hcnt, hrc0]
          have hpres : ∀ p fn', findMatchAt reg2.file_tree p fn' =
              findMatchAt reg.file_tree p fn' := by
            intro p fn'
            rw [htree]
            refine findMatchAt_id_update _ _ _ _ _ hupd ?_ p fn'
            intro m hm
            rw [hm0] at hm
            simp only [Option.some.injEq] at hm
            subst hm
            rw [hrc0]
          subst hcnt0
          have hrec2 : ∀ e2, WalkItem.ok e2 ∈ rest → e2.isDir = false →
              (∃ a, findMatchAt reg2.file_tree (stepSegs e2).dropLast
                (entryFileName e2) = some a ∧ a.timestamp = e2.mtime) ∨
              process_file e2 = none := by
            intro e2 he hd
            rcases hrec e2 (List.mem_cons_of_mem _ he) hd with ⟨a, hfm, hts⟩ | hpn
            · exact Or.inl ⟨a, by rw [hpres]; exact hfm, hts⟩
            · exact Or.inr hpn
          have hih := ih reg2 (ing + 0) _ out h hrec2
          simpa using hih

/-- A non-directory ok item contributes its segment path to `okFilePaths`. -/
theorem okFilePaths_mem_of : ∀ (walk : List WalkItem) (e : DirEntry),
    WalkItem.ok e ∈ walk → e.isDir = false → stepSegs e ∈ okFilePaths walk := by
  intro walk
  induction walk with
  | nil => intro e he _; simp at he
  | cons item rest ih =>
    intro e he hd
    cases item with
    | err msg =>
      rw [okFilePaths_err]
      rcases List.mem_cons.mp he with heq | hin
      · exact absurd heq (by simp)
      · exact ih e hin hd
    | ok e2 =>
      rcases List.mem_cons.mp he with heq | hin
      · injection heq with heq2
        subst heq2
        rw [okFilePaths_file e rest hd]
        exact List.mem_cons_self _ _
      · cases hd2 : e2.isDir with
        | true =>
          rw [okFilePaths_dir e2 rest hd2]
          exact ih e hin hd
        | false =>
          rw [okFilePaths_file e2 rest hd2]
          exact List.mem_cons_of_mem _ (ih e hin hd)

/-- Running the rescan loop from a well-formed tree: every already-reconciled
    entry stays reconciled, and every remaining file entry that starts with no
    match ends reconciled in the final tree. -/
theorem rescanGo_phase1 : ∀ (walk : List WalkItem) (done : List DirEntry)
    (reg : AssetRegistry) (ing : Nat) (recd : List (Nat × String)) (out : RescanOut),
    rescanGo reg walk ing recd = some out →
    KeysOK reg.file_tree →
    (∀ e, (WalkItem.ok e ∈ walk ∧ e.isDir = false) ∨ e ∈ done →
      rustFileName (entryFileName e) = some (entryFileName e) ∧ stepSegs e ≠ []) →
    List.Pairwise NeitherPre (done.map stepSegs ++ okFilePaths walk) →
    (∀ e ∈ done,
      (∃ a, findMatchAt reg.file_tree (stepSegs e).dropLast (entryFileName e) = some a ∧
        a.timestamp = e.mtime) ∨
      (process_file e = none ∧
        findMatchAt reg.file_tree (stepSegs e).dropLast (entryFileName e) = none)) →
    (∀ e, WalkItem.ok e ∈ walk → e.isDir = false →
      findMatchAt reg.file_tree (stepSegs e).dropLast (entryFileName e) = none) →
    ∀ e, (WalkItem.ok e ∈ walk ∧ e.isDir = false) ∨ e ∈ done →
      (∃ a, findMatchAt out.reg.file_tree (stepSegs e).dropLast
        (entryFileName e) = some a ∧ a.timestamp = e.mtime) ∨
      (process_file e = none ∧
        findMatchAt out.reg.file_tree (stepSegs e).dropLast (entryFileName e) = none) := by
  intro walk
  induction walk with
  | nil =>
    intro done reg ing recd out h hok hv hpw hdone hrem e hmem
    simp only [rescanGo, Option.some.injEq] at h
    rw [← h]
    rcases hmem with ⟨hin, -⟩ | hin
    · simp at hin
    · exact hdone e hin
  | cons item rest ih =>
    intro done reg ing recd out h hok hv hpw hdone hrem e hmem
    cases item with
    | err msg =>
      rw [okFilePaths_err] at hpw
      have hconc := ih done reg ing recd out h hok
        (fun e2 hm2 => hv e2 (by
          rcases hm2 with ⟨hin, hd⟩ | hin
          · exact Or.inl ⟨List.mem_cons_of_mem _ hin, hd⟩
          · exact Or.inr hin))
        hpw hdone
        (fun e2 he hd => hrem e2 (List.mem_cons_of_mem _ he) hd)
      refine hconc e ?_
      rcases hmem with ⟨hin, hd⟩ | hin
      · rcases List.mem_cons.mp hin with heq | hin2
        · exact absurd heq (by simp)
        · exact Or.inl ⟨hin2, hd⟩
      · exact Or.inr hin
    | ok e0 =>
      simp only [rescanGo] at h
      split at h
      · rename_i hdirT
        rw [okFilePaths_dir e0 rest hdirT] at hpw
        have hconc := ih done reg ing recd out h hok
          (fun e2 hm2 => hv e2 (by
            rcases hm2 with ⟨hin, hd⟩ | hin
            · exact Or.inl ⟨List.mem_cons_of_mem _ hin, hd⟩
            · exact Or.inr hin))
          hpw hdone
          (fun e2 he hd => hrem e2 (List.mem_cons_of_mem _ he) hd)
        refine hconc e ?_
        rcases hmem with ⟨hin, hd⟩ | hin
        · rcases List.mem_cons.mp hin with heq | hin2
          · injection heq with heq2
            subst heq2
            rw [hdirT] at hd
            exact absurd hd (by simp)
          · exact Or.inl ⟨hin2, hd⟩
        · exact Or.inr hin
      · rename_i hdir
        have hdf : e0.isDir = false := by
          revert hdir
          cases e0.isDir <;> simp
        cases hstep : rescanStep reg e0 with
        | none => rw [hstep] at h; simp at h
        | some pr =>
          rw [hstep] at h
          obtain ⟨reg2, recOpt, cnt⟩ := pr
          obtain ⟨m0, tree2, hne, hm0, hupd, htree, -, -, -, -, -, -⟩ :=
            rescanStep_inv reg e0 reg2 recOpt cnt hstep
          obtain ⟨hv0, -⟩ := hv e0 (Or.inl ⟨List.mem_cons_self _ _, hdf⟩)
          rw [okFilePaths_file e0 rest hdf] at hpw
          rw [List.pairwise_append] at hpw
          obtain ⟨hp1, hp2, hp12⟩ := hpw
          rw [List.pairwise_cons] at hp2
          obtain ⟨hp2h, hp2t⟩ := hp2
          have hkeys2 : KeysOK reg2.file_tree :=
            rescanStep_keysOK reg e0 reg2 recOpt cnt hstep hv0 hok
          have hfm0none : findMatch m0 (entryFileName e0) = none := by
            have h0 := hrem e0 (List.mem_cons_self _ _) hdf
            unfold findMatchAt at h0
            rw [hm0] at h0
            simpa using h0
          have hkeysm0 : KeysOK (FileTreeNode.Directory m0) :=
            KeysOK_effMapAt _ _ _ hm0 hok
          have holdv := findMatch_none_alookup m0 hkeysm0 (entryFileName e0) hfm0none
          -- relation of the head entry to every other relevant entry
          have hrel : ∀ e2, e2 ∈ done ∨
              (WalkItem.ok e2 ∈ rest ∧ e2.isDir = false) →
              NeitherPre (stepSegs e0) (stepSegs e2) := by
            intro e2 hm2
            rcases hm2 with hin | ⟨hin, hd⟩
            · exact neitherPre_symm (hp12 _ (List.mem_map_of_mem stepSegs hin)
                _ (List.mem_cons_self _ _))
            · exact hp2h _ (okFilePaths_mem_of rest e2 hin hd)
          -- hypotheses of the recursive call that do not depend on the outcome
          have hvN : ∀ e2, (WalkItem.ok e2 ∈ rest ∧ e2.isDir = false) ∨ e2 ∈ e0 :: done →
              rustFileName (entryFileName e2) = some (entryFileName e2) ∧
              stepSegs e2 ≠ [] := by
            intro e2 hm2
            rcases hm2 with ⟨hin, hd⟩ | hin
            · exact hv e2 (Or.inl ⟨List.mem_cons_of_mem _ hin, hd⟩)
            · rcases List.mem_cons.mp hin with heq | hin2
              · subst heq
                exact hv e2 (Or.inl ⟨List.mem_cons_self _ _, hdf⟩)
              · exact hv e2 (Or.inr hin2)
          have hpwN : List.Pairwise NeitherPre
              ((e0 :: done).map stepSegs ++ okFilePaths rest) := by
            simp only [List.map_cons, List.cons_append]
            refine List.Pairwise.cons ?_ ?_
            · intro b hb
              rcases List.mem_append.mp hb with hb2 | hb2
              · exact neitherPre_symm (hp12 _ hb2 _ (List.mem_cons_self _ _))
              · exact hp2h _ hb2
            · rw [List.pairwise_append]
              exact ⟨hp1, hp2t, fun a ha b hb => hp12 a ha b (List.mem_cons_of_mem _ hb)⟩
          cases hpf : process_file e0 with
          | none =>
            have hrc0 : reconcile m0 e0 (entryFileName e0) = (m0, (none, 0)) :=
              reconcile_go_none m0 e0 (entryFileName e0) hpf
            have hpres : ∀ p fn', findMatchAt reg2.file_tree p fn' =
                findMatchAt reg.file_tree p fn' := by
              intro p fn'
              rw [htree]
              refine findMatchAt_id_update _ _ _ _ _ hupd ?_ p fn'
              intro m hm
              rw [hm0] at hm
              simp only [Option.some.injEq] at hm
              subst hm
              rw [hrc0]
            have hdone2 : ∀ e2 ∈ e0 :: done,
                (∃ a, findMatchAt reg2.file_tree (stepSegs e2).dropLast
                  (entryFileName e2) = some a ∧ a.timestamp = e2.mtime) ∨
                (process_file e2 = none ∧
                  findMatchAt reg2.file_tree (stepSegs e2).dropLast
                    (entryFileName e2) = none) := by
              intro e2 hm2
              rcases List.mem_cons.mp hm2 with heq | hin
              · subst heq
                refine Or.inr ⟨hpf, ?_⟩
                rw [hpres]
                exact hrem e2 (List.mem_cons_self _ _) hdf
              · rcases hdone e2 hin with ⟨a, hfm, hts⟩ | ⟨hpn, hfm⟩
                · exact Or.inl ⟨a, by rw [hpres]; exact hfm, hts⟩
                · exact Or.inr ⟨hpn, by rw [hpres]; exact hfm⟩
            have hrem2 : ∀ e2, WalkItem.ok e2 ∈ rest → e2.isDir = false →
                findMatchAt reg2.file_tree (stepSegs e2).dropLast
                  (entryFileName e2) = none := by
              intro e2 he hd
              rw [hpres]
              exact hrem e2 (List.mem_cons_of_mem _ he) hd
            have hconc := ih (e0 :: done) reg2 _ _ out h hkeys2 hvN hpwN hdone2 hrem2
            refine hconc e ?_
            rcases hmem with ⟨hin, hd⟩ | hin
            · rcases List.mem_cons.mp hin with heq | hin2
              · injection heq with heq2
                subst heq2
                exact Or.inr (List.mem_cons_self _ _)
              · exact Or.inl ⟨hin2, hd⟩
            · exact Or.inr (List.mem_cons_of_mem _ hin)
          | some A =>
            have hsp : shouldProcess m0 e0 (entryFileName e0) = true :=
              shouldProcess_of_none m0 e0 (entryFileName e0) hfm0none
            have hrcA : reconcile m0 e0 (entryFileName e0) =
                (insertA m0 (entryFileName e0) (FileTreeNode.File A), (some A, 1)) :=
              reconcile_go_some m0 e0 (entryFileName e0) A hsp hpf
            have hAfield := process_file_fields e0 A hpf
            have hAname : rustFileName A.path = some (entryFileName e0) := by
              rw [hAfield.1]
              exact hv0
            have hshape : (reconcile m0 e0 (entryFileName e0)).1 =
                insertA m0 (entryFileName e0) (FileTreeNode.File A) := by rw [hrcA]
            have hpres : ∀ e2, e2 ∈ done ∨ (WalkItem.ok e2 ∈ rest ∧ e2.isDir = false) →
                findMatchAt reg2.file_tree (stepSegs e2).dropLast (entryFileName e2) =
                findMatchAt reg.file_tree (stepSegs e2).dropLast (entryFileName e2) := by
              intro e2 hm2
              have hne2 : stepSegs e2 ≠ [] := by
                rcases hm2 with hin | ⟨hin, hd⟩
                · exact (hv e2 (Or.inr hin)).2
                · exact (hv e2 (Or.inl ⟨List.mem_cons_of_mem _ hin, hd⟩)).2
              obtain ⟨hcase, hnp⟩ :=
                neitherPre_side_conditions e0 e2 hne hne2 (hrel e2 hm2)
              rw [htree]
              exact findMatchAt_after_ingest reg.file_tree tree2 e0 m0 A hm0 hupd
                hshape hAname holdv _ _ hcase hnp
            have hself : findMatchAt reg2.file_tree (stepSegs e0).dropLast
                (entryFileName e0) = some A := by
              rw [htree]
              obtain ⟨m0', hm0', -, heff2, -⟩ := updateAtDir_effMapAt _ _ _ _ _ hupd
              have hm0eq : m0' = m0 := by
                rw [hm0'] at hm0
                simpa using hm0
              rw [hm0eq] at heff2
              unfold findMatchAt
              rw [heff2]
              simp only [Option.some_bind]
              have hgoal : findMatch (reconcile m0 e0 (entryFileName e0)).1
                  (entryFileName e0) = some A := by
                rw [hshape]
                exact findMatch_insertA_file_self m0 (entryFileName e0) A hfm0none
                  hAname holdv
              exact hgoal
            have hdone2 : ∀ e2 ∈ e0 :: done,
                (∃ a, findMatchAt reg2.file_tree (stepSegs e2).dropLast
                  (entryFileName e2) = some a ∧ a.timestamp = e2.mtime) ∨
                (process_file e2 = none ∧
                  findMatchAt reg2.file_tree (stepSegs e2).dropLast
                    (entryFileName e2) = none) := by
              intro e2 hm2
              rcases List.mem_cons.mp hm2 with heq | hin
              · subst heq
                exact Or.inl ⟨A, hself, hAfield.2.1⟩
              · rcases hdone e2 hin with ⟨a, hfm, hts⟩ | ⟨hpn, hfm⟩
                · exact Or.inl ⟨a, by rw [hpres e2 (Or.inl hin)]; exact hfm, hts⟩
                · exact Or.inr ⟨hpn, by rw [hpres e2 (Or.inl hin)]; exact hfm⟩
            have hrem2 : ∀ e2, WalkItem.ok e2 ∈ rest → e2.isDir = false →
                findMatchAt reg2.file_tree (stepSegs e2).dropLast
                  (entryFileName e2) = none := by
              intro e2 he hd
              rw [hpres e2 (Or.inr ⟨he, hd⟩)]
              exact hrem e2 (List.mem_cons_of_mem _ he) hd
            have hconc := ih (e0 :: done) reg2 _ _ out h hkeys2 hvN hpwN hdone2 hrem2
            refine hconc e ?_
            rcases hmem with ⟨hin, hd⟩ | hin
            · rcases List.mem_cons.mp hin with heq | hin2
              · injection heq with heq2
                subst heq2
                exact Or.inr (List.mem_cons_self _ _)
              · exact Or.inl ⟨hin2, hd⟩
            · exact Or.inr (List.mem_cons_of_mem _ hin)

/-- C5, confirmed.  Reconciliation of a file entry against its target directory
    map: a `File` child scanning equal to the entry's file name with the entry's
    current modified time makes the step skip ingestion and leave the map
    unchanged; such a child with a different timestamp makes the step re-ingest
    and overwrite under the same filename key; no such child makes the step
    ingest and insert.  Consequently, over a prefix-free walk of well-formed
    names, a second rescan of a registry populated from empty by a first rescan
    of the same unchanged walk performs zero ingestions. -/
theorem C5_thm :
    (∀ (m : List (String × FileTreeNode)) (e : DirEntry) (fn : String) (a : Asset),
      findMatch m fn = some a → a.timestamp = e.mtime →
      reconcile m e fn = (m, (none, 0))) ∧
    (∀ (m : List (String × FileTreeNode)) (e : DirEntry) (fn : String) (a A : Asset),
      findMatch m fn = some a → a.timestamp ≠ e.mtime → process_file e = some A →
      reconcile m e fn = (insertA m fn (FileTreeNode.File A), (some A, 1))) ∧
    (∀ (m : List (String × FileTreeNode)) (e : DirEntry) (fn : String) (A : Asset),
      findMatch m fn = none → process_file e = some A →
      reconcile m e fn = (insertA m fn (FileTreeNode.File A), (some A, 1))) ∧
    (∀ (walk : List WalkItem) (reg : AssetRegistry) (out out2 : RescanOut),
      reg.file_tree = FileTreeNode.Directory [] →
      (∀ e, WalkItem.ok e ∈ walk → e.isDir = false →
        rustFileName (entryFileName e) = some (entryFileName e) ∧ stepSegs e ≠ []) →
      List.Pairwise NeitherPre (okFilePaths walk) →
      rescan reg walk = some out →
      rescan out.reg walk = some out2 →
      out2.ingestions = 0) := by
  refine ⟨?_, ?_, ?_, ?_⟩
  · intro m e fn a hfm hts
    exact reconcile_skip m e fn a hfm hts
  · intro m e fn a A hfm hts hp
    exact reconcile_go_some m e fn A (shouldProcess_of_stale m e fn a hfm hts) hp
  · intro m e fn A hfm hp
    exact reconcile_go_some m e fn A (shouldProcess_of_none m e fn hfm) hp
  · intro walk reg out out2 hempty hv hpw h1 h2
    have hok : KeysOK reg.file_tree := by
      rw [hempty]
      exact KeysOK_empty
    have hv1 : ∀ e, (WalkItem.ok e ∈ walk ∧ e.isDir = false) ∨
        e ∈ ([] : List DirEntry) →
        rustFileName (entryFileName e) = some (entryFileName e) ∧ stepSegs e ≠ [] := by
      intro e hm
      rcases hm with ⟨hin, hd⟩ | hin
      · exact hv e hin hd
      · simp at hin
    have hpw1 : List.Pairwise NeitherPre
        (([] : List DirEntry).map stepSegs ++ okFilePaths walk) := by
      simpa using hpw
    have hdone1 : ∀ e ∈ ([] : List DirEntry),
        (∃ a, findMatchAt reg.file_tree (stepSegs e).dropLast (entryFileName e) =
          some a ∧ a.timestamp = e.mtime) ∨
        (process_file e = none ∧
          findMatchAt reg.file_tree (stepSegs e).dropLast (entryFileName e) = none) := by
      intro e he
      simp at he
    have hrem1 : ∀ e, WalkItem.ok e ∈ walk → e.isDir = false →
        findMatchAt reg.file_tree (stepSegs e).dropLast (entryFileName e) = none := by
      intro e _ _
      rw [hempty]
      exact findMatchAt_empty _ _
    have hph1 := rescanGo_phase1 walk [] reg 0 [] out h1 hok hv1 hpw1 hdone1 hrem1
    refine rescanGo_no_ingest walk out.reg 0 [] out2 h2 ?_
    intro e he hd
    rcases hph1 e (Or.inl ⟨he, hd⟩) with ⟨a, hfm, hts⟩ | ⟨hpn, -⟩
    · exact Or.inl ⟨a, hfm, hts⟩
    · exact Or.inr hpn

/-- Witness for C5: the skip case on a concrete directory map, and the
    zero-ingestion second rescan on a concrete one-entry walk. -/
theorem C5_witness :
    reconcile [("a.png", FileTreeNode.File assetA)] entA "a.png" =
      ([("a.png", FileTreeNode.File assetA)], (none, 0)) ∧
    rescan regFresh [WalkItem.ok entA] = some outA ∧
    rescan outA.reg [WalkItem.ok entA] = some outA2 ∧
    outA2.ingestions = 0 := by
  have hpw : List.Pairwise NeitherPre (okFilePaths [WalkItem.ok entA]) := by
    rw [okFilePaths_file entA [] rfl]
    refine List.Pairwise.cons ?_ List.Pairwise.nil
    intro a' ha'
    simp [okFilePaths] at ha'
  have hv : ∀ e, WalkItem.ok e ∈ [WalkItem.ok entA] → e.isDir = false →
      rustFileName (entryFileName e) = some (entryFileName e) ∧ stepSegs e ≠ [] := by
    intro e he _
    simp only [List.mem_singleton, WalkItem.ok.injEq] at he
    subst he
    exact ⟨rfl, by decide⟩
  refine ⟨C5_thm.1 _ entA _ assetA rfl rfl, rfl, rfl, ?_⟩
  exact C5_thm.2.2.2 [WalkItem.ok entA] regFresh outA outA2 rfl hv hpw rfl rfl

end Pipedream
